import Mathlib

/-!
Verification development for the mtgo-db cross-database sync and merge engine.

The definitions below are a shallow embedding of the TypeScript sources:
  * the upstream-to-local sync pipeline (`sync-upstream` script): diff
    detection (`getIncompleteEventIds`, `getUpstreamEvents`), identity
    reconciliation (`syncPlayers`), and the dependency-ordered batched
    upsert stages (`syncEvents` .. `syncArchetypes`);
  * the merge-from-dump utility (`mergeDatabases`): the per-category
    snapshot row selections and per-row insert loops.

Database tables are modelled as lists of records; SQL `INSERT .. ON
CONFLICT (k) DO UPDATE SET <all non-key columns> = EXCLUDED...` is
modelled by `upsertBy k` (for every entity the update list covers every
non-key column, so the conflicting row is replaced by the incoming row
wholesale); `ON CONFLICT .. DO NOTHING` is modelled by a skip.  SQL
`ORDER BY` is modelled with a stable structural sort on the same keys.
-/

/-- A row of the `players` table: `id INT` (possibly a synthesized
negative id), `name` unique. -/
structure Player where
  id : Int
  name : String
deriving DecidableEq

/-- A row of the `events` table (the `EventRecord` interface of the
source: `id, name, date, format, kind, rounds, players`).  Dates are
modelled as integers (only their ordering matters). -/
structure EventRecord where
  id : Int
  name : String
  date : Int
  format : String
  kind : String
  rounds : Option Int
  players : Option Int
deriving DecidableEq

/-- A row of the `standings` table: key `(event_id, player)`. -/
structure Standing where
  event_id : Int
  rank : Int
  player : String
  record : String
  points : Int
  omwp : Int
  gwp : Int
  owp : Int
deriving DecidableEq

/-- A row of the `matches` table: key `(event_id, round, player)`;
`id` is a surrogate carried along as an ordinary column. -/
structure MatchRow where
  id : Int
  event_id : Int
  round : Int
  player : String
  opponent : String
  record : String
  result : String
  isbye : Bool
  games : String
deriving DecidableEq

/-- A row of the `decks` table: key `id`. -/
structure Deck where
  id : Int
  event_id : Int
  player : String
  mainboard : String
  sideboard : String
deriving DecidableEq

/-- A row of the `archetypes` table: key `id`; `deck_id` is nullable. -/
structure Archetype where
  id : Int
  deck_id : Option Int
  name : String
  archetype : String
  archetype_id : Int
deriving DecidableEq

/-- One database (either side of the sync): the six entity tables. -/
structure DB where
  events : List EventRecord
  players : List Player
  standings : List Standing
  matches' : List MatchRow
  decks : List Deck
  archetypes : List Archetype
deriving DecidableEq

/-- The per-category row counts reported in the end-of-run summary
(the `SyncStats` interface of the source). -/
structure SyncStats where
  events : Nat
  players : Nat
  matches' : Nat
  decks : Nat
  standings : Nat
  archetypes : Nat
deriving DecidableEq

/-- All-zero summary. -/
def zeroStats : SyncStats := ⟨0, 0, 0, 0, 0, 0⟩

/-- Result of one full `sync()` run: the target state, the per-category
stats, and the new / updated event counts printed in the summary. -/
structure SyncResult where
  db : DB
  stats : SyncStats
  newEventsCount : Nat
  updatedEventsCount : Nat
deriving DecidableEq

/-- `INSERT .. ON CONFLICT (key) DO UPDATE SET <every non-key column> =
EXCLUDED.<column>`: rows are applied in order; a row whose key is
already present replaces the matching row(s) in place (for each entity
the source's SET list covers all non-key columns, and the key columns
agree by the conflict, so the stored row becomes the incoming row);
a row with a fresh key is appended. -/
def updateRow {α β : Type} [DecidableEq β] (key : α → β) (tbl : List α) (r : α) : List α :=
  tbl.map (fun x => if key x = key r then r else x)

/-- One row of the upsert: update in place on a key conflict, append
otherwise. -/
def upsertStep {α β : Type} [DecidableEq β] (key : α → β) (acc : List α) (r : α) : List α :=
  if acc.any (fun x => decide (key x = key r)) then updateRow key acc r
  else acc ++ [r]

/-- The batched upsert writer's effect on one table: rows applied in
order via `upsertStep`. -/
def upsertBy {α β : Type} [DecidableEq β] (key : α → β) (tbl rows : List α) : List α :=
  rows.foldl (upsertStep key) tbl

/-- Structural worker for `chunks`: the first argument is fuel, always
instantiated with the length of the list (each step consumes at least
one element, so length-many steps suffice; the fuel-0 branch is
unreachable from `chunks`). -/
def chunksGo {α : Type} (bs : Nat) : Nat → List α → List (List α)
  | _, [] => []
  | 0, l => [l]
  | fuel + 1, x :: xs => ((x :: xs).take bs) :: chunksGo bs fuel (xs.drop (bs - 1))

/-- Batch splitting: `for (let i = 0; i < rows.length; i += bs)
slice(i, i + bs)` (the source's chunking loop, for `bs ≥ 1`). -/
def chunks {α : Type} (bs : Nat) (l : List α) : List (List α) :=
  chunksGo bs l.length l

theorem chunksGo_fuel_irrel {α : Type} (bs : Nat) :
    ∀ (fuel fuel' : Nat) (l : List α), l.length ≤ fuel → l.length ≤ fuel' →
      chunksGo bs fuel l = chunksGo bs fuel' l := by
  intro fuel
  induction fuel with
  | zero =>
    intro fuel' l h _
    cases l with
    | nil => cases fuel' <;> rfl
    | cons x xs => simp at h
  | succ f ih =>
    intro fuel' l h h'
    cases l with
    | nil => cases fuel' <;> rfl
    | cons x xs =>
      cases fuel' with
      | zero => simp at h'
      | succ f' =>
        simp only [chunksGo]
        have hd : (xs.drop (bs - 1)).length ≤ xs.length := by
          simp [List.length_drop]
        have h1 : (xs.drop (bs - 1)).length ≤ f := by
          simp only [List.length_cons, Nat.succ_le_succ_iff] at h; omega
        have h2 : (xs.drop (bs - 1)).length ≤ f' := by
          simp only [List.length_cons, Nat.succ_le_succ_iff] at h'; omega
        rw [ih f' _ h1 h2]

theorem chunks_nil {α : Type} (bs : Nat) : chunks bs ([] : List α) = [] := rfl

theorem chunks_cons {α : Type} (bs : Nat) (x : α) (xs : List α) :
    chunks bs (x :: xs) = ((x :: xs).take bs) :: chunks bs (xs.drop (bs - 1)) := by
  show chunksGo bs (xs.length + 1) (x :: xs) = _
  simp only [chunksGo]
  rw [chunksGo_fuel_irrel bs xs.length (xs.drop (bs - 1)).length _
    (by simp [List.length_drop]) (le_refl _)]
  rfl

/-- `tbl` has no two rows sharing the key `key`. -/
def NodupKeys {α β : Type} [DecidableEq β] (key : α → β) (tbl : List α) : Prop :=
  (tbl.map key).Nodup

instance {α β : Type} [DecidableEq β] (key : α → β) (tbl : List α) :
    Decidable (NodupKeys key tbl) := by
  unfold NodupKeys; exact inferInstance

/-- `SELECT id FROM events` on the target. -/
def getLocalEventIds (tgt : DB) : List Int :=
  tgt.events.map (·.id)

/-- The diff engine's incompleteness test on one target event row:
`e.players > 0 AND (NOT EXISTS standings OR NOT EXISTS matches)`.
Deck rows are deliberately not consulted. -/
def incompletePred (tgt : DB) (e : EventRecord) : Bool :=
  decide (0 < e.players.getD 0) &&
    (!(tgt.standings.any (fun s => decide (s.event_id = e.id))) ||
     !(tgt.matches'.any (fun m => decide (m.event_id = e.id))))

/-- `ORDER BY e.date DESC, e.id DESC` on the projected
`(id, name, date)` triples. -/
def incompleteBefore (a b : Int × String × Int) : Prop :=
  b.2.2 < a.2.2 ∨ (a.2.2 = b.2.2 ∧ b.1 ≤ a.1)

instance : DecidableRel incompleteBefore := fun a b => by
  unfold incompleteBefore; exact inferInstance

/-- The `SELECT DISTINCT e.id, e.name, e.date .. ORDER BY .. LIMIT 100`
result rows of the incomplete-events query. -/
def incompleteSelected (tgt : DB) : List (Int × String × Int) :=
  ((((tgt.events.filter (incompletePred tgt)).map
      (fun e => (e.id, e.name, e.date))).dedup).insertionSort incompleteBefore).take 100

/-- The diff engine: identifiers of locally-present events that are
structurally incomplete, most recent first, at most 100. -/
def getIncompleteEventIds (tgt : DB) : List Int :=
  (incompleteSelected tgt).map (·.1)

/-- `ORDER BY date DESC, id DESC` on upstream event rows. -/
def eventsBefore (a b : EventRecord) : Prop :=
  b.date < a.date ∨ (a.date = b.date ∧ b.id ≤ a.id)

instance : DecidableRel eventsBefore := fun a b => by
  unfold eventsBefore; exact inferInstance

/-- Upstream events whose id is not already present locally
(`WHERE id NOT IN <excludeIds>`; when no local events exist, all
upstream events), most recent first. -/
def getUpstreamEvents (src : DB) (excludeIds : List Int) : List EventRecord :=
  if excludeIds.isEmpty then
    src.events.insertionSort eventsBefore
  else
    (src.events.filter (fun e => !(decide (e.id ∈ excludeIds)))).insertionSort eventsBefore

/-- The distinct player names referenced by the worklist's events via
standings, matches and decks on the source
(`SELECT DISTINCT player .. UNION .. UNION ..`). -/
def referencedPlayerNames (src : DB) (eventIds : List Int) : List String :=
  (((src.standings.filter (fun s => decide (s.event_id ∈ eventIds))).map (·.player)) ++
   ((src.matches'.filter (fun m => decide (m.event_id ∈ eventIds))).map (·.player)) ++
   ((src.decks.filter (fun d => decide (d.event_id ∈ eventIds))).map (·.player))).dedup

/-- `upstreamPlayerMap.get(name)`: the JS `Map` built from the fetched
upstream player rows keeps the last binding for each name. -/
def lookupName (ups : List Player) (n : String) : Option Int :=
  (ups.reverse.find? (fun p => decide (p.name = n))).map (·.id)

/-- `negativeIds.length > 0 ? Math.min(...negativeIds) : 0`. -/
def minNegativeId : List Int → Int
  | [] => 0
  | x :: xs => xs.foldl min x

/-- The identity-assignment loop of `syncPlayers`: for each referenced
name not already present locally, adopt the upstream id when it exists
and does not positively collide with an already-used local id, and
otherwise assign `nextNegativeId--`. -/
def assignPlayers (ups : List Player) (localNames : List String) (localIds : List Int) :
    List String → Int → List Player
  | [], _ => []
  | n :: rest, next =>
    if n ∈ localNames then
      assignPlayers ups localNames localIds rest next
    else
      match lookupName ups n with
      | some i =>
        if 0 < i ∧ i ∈ localIds then
          ⟨next, n⟩ :: assignPlayers ups localNames localIds rest (next - 1)
        else
          ⟨i, n⟩ :: assignPlayers ups localNames localIds rest next
      | none => ⟨next, n⟩ :: assignPlayers ups localNames localIds rest (next - 1)

/-- The upstream player rows fetched for the referenced names
(`SELECT id, name FROM players WHERE name IN <playerNames>`). -/
def upsSel (src : DB) (eventIds : List Int) : List Player :=
  src.players.filter (fun p => decide (p.name ∈ referencedPlayerNames src eventIds))

/-- `minNegativeId` over the target's currently-used negative player
ids (0 when none exists). -/
def localFloor (tgt : DB) : Int :=
  minNegativeId ((tgt.players.filter (fun p => decide (p.id < 0))).map (·.id))

/-- The `playersToSync` list computed by `syncPlayers` for a worklist:
ids are assigned per name starting one below the lowest negative id
currently used locally. -/
def playersToSync (src tgt : DB) (eventIds : List Int) : List Player :=
  assignPlayers (upsSel src eventIds) (tgt.players.map (·.name)) (tgt.players.map (·.id))
    (referencedPlayerNames src eventIds) (localFloor tgt - 1)

/-- `INSERT INTO players .. ON CONFLICT (name) DO NOTHING`: rows whose
name is already present (in the table or earlier in the same statement)
are dropped, the rest are appended. -/
def insertPlayersDoNothing (tbl rows : List Player) : List Player :=
  rows.foldl (fun acc r =>
    if acc.any (fun q => decide (q.name = r.name)) then acc else acc ++ [r]) tbl

/-- Stage 1, `syncPlayers(eventIds)`: returns the updated target and the
number of player rows prepared for insertion. -/
def syncPlayers (src tgt : DB) (eventIds : List Int) : DB × Nat :=
  if eventIds.isEmpty then (tgt, 0)
  else if (referencedPlayerNames src eventIds).isEmpty then (tgt, 0)
  else
    let ps := playersToSync src tgt eventIds
    ({ tgt with players := insertPlayersDoNothing tgt.players ps }, ps.length)

/-- Conflict key of the `events` upsert: `ON CONFLICT (id)`. -/
def eventKey (e : EventRecord) : Int := e.id

/-- Stage 2, `syncEvents(events)`: full upsert of the given event rows. -/
def syncEvents (tgt : DB) (evs : List EventRecord) : DB × Nat :=
  if evs.isEmpty then (tgt, 0)
  else ({ tgt with events := upsertBy eventKey tgt.events evs }, evs.length)

/-- Conflict key of the `standings` upsert: `ON CONFLICT (event_id, player)`. -/
def standingKey (s : Standing) : Int × String := (s.event_id, s.player)

/-- `ORDER BY event_id, rank` on source standings. -/
def standingsBefore (a b : Standing) : Prop :=
  a.event_id < b.event_id ∨ (a.event_id = b.event_id ∧ a.rank ≤ b.rank)

instance : DecidableRel standingsBefore := fun a b => by
  unfold standingsBefore; exact inferInstance

/-- Stage 3, `syncStandings(eventIds)`: fetch the worklist's standings
from the source and upsert them in chunks of 8000 rows. -/
def syncStandings (src tgt : DB) (eventIds : List Int) : DB × Nat :=
  if eventIds.isEmpty then (tgt, 0)
  else
    let standings := (src.standings.filter
      (fun s => decide (s.event_id ∈ eventIds))).insertionSort standingsBefore
    if standings.isEmpty then (tgt, 0)
    else
      ({ tgt with standings :=
          (chunks 8000 standings).foldl (upsertBy standingKey) tgt.standings },
       standings.length)

/-- Conflict key of the `matches` upsert:
`ON CONFLICT (event_id, round, player)`. -/
def matchKey (m : MatchRow) : Int × Int × String := (m.event_id, m.round, m.player)

/-- `ORDER BY event_id, round, player` on source matches. -/
def matchesBefore (a b : MatchRow) : Prop :=
  a.event_id < b.event_id ∨
    (a.event_id = b.event_id ∧
      (a.round < b.round ∨ (a.round = b.round ∧ a.player ≤ b.player)))

instance : DecidableRel matchesBefore := fun a b => by
  unfold matchesBefore; exact inferInstance

/-- Stage 4, `syncMatches(eventIds)`: fetch the worklist's matches from
the source and upsert them in chunks of 7000 rows. -/
def syncMatches (src tgt : DB) (eventIds : List Int) : DB × Nat :=
  if eventIds.isEmpty then (tgt, 0)
  else
    let ms := (src.matches'.filter
      (fun m => decide (m.event_id ∈ eventIds))).insertionSort matchesBefore
    if ms.isEmpty then (tgt, 0)
    else
      ({ tgt with matches' :=
          (chunks 7000 ms).foldl (upsertBy matchKey) tgt.matches' },
       ms.length)

/-- Conflict key of the `decks` upsert: `ON CONFLICT (id)`. -/
def deckKey (d : Deck) : Int := d.id

/-- `ORDER BY event_id, player` on source decks. -/
def decksBefore (a b : Deck) : Prop :=
  a.event_id < b.event_id ∨ (a.event_id = b.event_id ∧ a.player ≤ b.player)

instance : DecidableRel decksBefore := fun a b => by
  unfold decksBefore; exact inferInstance

/-- Stage 5, `syncDecks(eventIds)`: fetch the worklist's decks from the
source and upsert them in chunks of 13000 rows. -/
def syncDecks (src tgt : DB) (eventIds : List Int) : DB × Nat :=
  if eventIds.isEmpty then (tgt, 0)
  else
    let ds := (src.decks.filter
      (fun d => decide (d.event_id ∈ eventIds))).insertionSort decksBefore
    if ds.isEmpty then (tgt, 0)
    else
      ({ tgt with decks := (chunks 13000 ds).foldl (upsertBy deckKey) tgt.decks },
       ds.length)

/-- Conflict key of the `archetypes` upsert: `ON CONFLICT (id)`. -/
def archetypeKey (a : Archetype) : Int := a.id

/-- `ORDER BY id` on source archetypes. -/
def archetypesBefore (a b : Archetype) : Prop := a.id ≤ b.id

instance : DecidableRel archetypesBefore := fun a b => by
  unfold archetypesBefore; exact inferInstance

/-- Stage 6, `syncArchetypes(eventIds)`: fetch the deck ids of the
worklist's events, then the archetypes of those decks, and upsert them
in chunks of 13000 rows. -/
def syncArchetypes (src tgt : DB) (eventIds : List Int) : DB × Nat :=
  if eventIds.isEmpty then (tgt, 0)
  else
    let deckIds := (src.decks.filter (fun d => decide (d.event_id ∈ eventIds))).map (·.id)
    if deckIds.isEmpty then (tgt, 0)
    else
      let as := (src.archetypes.filter
        (fun a => match a.deck_id with
          | some d => decide (d ∈ deckIds)
          | none => false)).insertionSort archetypesBefore
      if as.isEmpty then (tgt, 0)
      else
        ({ tgt with archetypes :=
            (chunks 13000 as).foldl (upsertBy archetypeKey) tgt.archetypes },
         as.length)

/-- One full `sync()` run: compute the worklist (new upstream events
plus locally-incomplete events), then run the six stages in dependency
order; an empty worklist short-circuits with an all-zero summary. -/
def sync (src tgt : DB) : SyncResult :=
  let localEventIds := getLocalEventIds tgt
  let incompleteEventIds := getIncompleteEventIds tgt
  let newEvents := getUpstreamEvents src localEventIds
  let allEventIdsToSync := newEvents.map (·.id) ++ incompleteEventIds
  if allEventIdsToSync.isEmpty then
    ⟨tgt, zeroStats, 0, 0⟩
  else
    let r1 := syncPlayers src tgt allEventIdsToSync
    let r2 := if newEvents.isEmpty then (r1.1, 0) else syncEvents r1.1 newEvents
    let r3 := syncStandings src r2.1 allEventIdsToSync
    let r4 := syncMatches src r3.1 allEventIdsToSync
    let r5 := syncDecks src r4.1 allEventIdsToSync
    let r6 := syncArchetypes src r5.1 allEventIdsToSync
    ⟨r6.1, ⟨r2.2, r1.2, r4.2, r5.2, r3.2, r6.2⟩, newEvents.length,
      incompleteEventIds.length⟩

theorem any_key_eq_true_iff {α β : Type} [DecidableEq β] (key : α → β)
    (tbl : List α) (r : α) :
    (tbl.any (fun x => decide (key x = key r)) = true) ↔ key r ∈ tbl.map key := by
  constructor
  · intro h
    rcases List.any_eq_true.mp h with ⟨x, hx, he⟩
    have hke : key x = key r := of_decide_eq_true he
    exact hke ▸ List.mem_map_of_mem key hx
  · intro h
    rcases List.mem_map.mp h with ⟨x, hx, he⟩
    exact List.any_eq_true.mpr ⟨x, hx, decide_eq_true he⟩

theorem updateRow_map_key {α β : Type} [DecidableEq β] (key : α → β)
    (tbl : List α) (r : α) :
    (updateRow key tbl r).map key = tbl.map key := by
  unfold updateRow
  rw [List.map_map]
  apply List.map_congr_left
  intro x _
  show key (if key x = key r then r else x) = key x
  by_cases h : key x = key r
  · rw [if_pos h, h]
  · rw [if_neg h]

theorem upsertBy_append {α β : Type} [DecidableEq β] (key : α → β)
    (tbl as bs : List α) :
    upsertBy key tbl (as ++ bs) = upsertBy key (upsertBy key tbl as) bs := by
  unfold upsertBy
  exact List.foldl_append ..

theorem upsertBy_map_key_superset {α β : Type} [DecidableEq β] (key : α → β) :
    ∀ (rows tbl : List α) (b : β), b ∈ tbl.map key → b ∈ (upsertBy key tbl rows).map key := by
  intro rows
  induction rows with
  | nil => intro tbl b h; exact h
  | cons r rest ih =>
    intro tbl b h
    show b ∈ (upsertBy key (upsertStep key tbl r) rest).map key
    apply ih
    unfold upsertStep
    split
    · rwa [updateRow_map_key]
    · simp only [List.map_append]
      exact List.mem_append_left _ h

theorem upsertBy_adds_keys {α β : Type} [DecidableEq β] (key : α → β) :
    ∀ (rows tbl : List α) (r : α), r ∈ rows → key r ∈ (upsertBy key tbl rows).map key := by
  intro rows
  induction rows with
  | nil => intro tbl r h; cases h
  | cons r0 rest ih =>
    intro tbl r h
    rcases List.mem_cons.mp h with h0 | h1
    · subst h0
      show key r ∈ (upsertBy key (upsertStep key tbl r) rest).map key
      apply upsertBy_map_key_superset
      unfold upsertStep
      split
      · next hc =>
        rw [updateRow_map_key]
        exact (any_key_eq_true_iff key tbl r).mp hc
      · simp
    · exact ih (upsertStep key tbl r0) r h1

theorem upsertBy_mem {α β : Type} [DecidableEq β] (key : α → β) :
    ∀ (rows tbl : List α) (z : α), z ∈ upsertBy key tbl rows → z ∈ tbl ∨ z ∈ rows := by
  intro rows
  induction rows with
  | nil => intro tbl z h; exact Or.inl h
  | cons r rest ih =>
    intro tbl z h
    rcases ih (upsertStep key tbl r) z h with h1 | h1
    · unfold upsertStep at h1
      split at h1
      · unfold updateRow at h1
        rcases List.mem_map.mp h1 with ⟨x, hx, hxz⟩
        by_cases hk : key x = key r
        · simp only [hk, if_pos] at hxz
          exact Or.inr (by rw [← hxz]; exact List.mem_cons_self ..)
        · simp only [hk, if_neg, if_false] at hxz
          exact Or.inl (hxz ▸ hx)
      · rcases List.mem_append.mp h1 with h2 | h2
        · exact Or.inl h2
        · exact Or.inr (List.mem_cons.mpr (Or.inl (List.mem_singleton.mp h2)))
    · exact Or.inr (List.mem_cons_of_mem _ h1)

/-- The "last write wins" residue: every row of an upsert result is a
fixed point of replaying the row set against it. -/
theorem upsertBy_chain_fixed {α β : Type} [DecidableEq β] (key : α → β)
    (rows : List α) : ∀ (tbl : List α) (x : α), x ∈ upsertBy key tbl rows →
      rows.foldl (fun v r => if key r = key x then r else v) x = x := by
  induction rows using List.reverseRecOn with
  | nil => intro tbl x _; rfl
  | append_singleton rs r ih =>
    intro tbl x hx
    rw [upsertBy_append] at hx
    have hstep : upsertBy key (upsertBy key tbl rs) [r] =
        upsertStep key (upsertBy key tbl rs) r := rfl
    rw [hstep] at hx
    rw [List.foldl_append]
    unfold upsertStep at hx
    split at hx
    · next hc =>
      unfold updateRow at hx
      rcases List.mem_map.mp hx with ⟨x0, hx0, hx0e⟩
      by_cases hk : key x0 = key r
      · simp only [hk, if_pos] at hx0e
        subst hx0e
        simp
      · simp only [hk, if_neg, if_false] at hx0e
        subst hx0e
        rw [ih _ x0 hx0]
        simp only [List.foldl_cons, List.foldl_nil]
        rw [if_neg (fun h : key r = key x0 => hk h.symm)]
    · next hc =>
      rcases List.mem_append.mp hx with h2 | h2
      · have hky : key r ≠ key x := by
          intro he
          apply hc
          rw [any_key_eq_true_iff]
          have hm : key x ∈ List.map key (upsertBy key tbl rs) :=
            List.mem_map_of_mem key h2
          rwa [← he] at hm
        rw [ih _ x h2]
        simp only [List.foldl_cons, List.foldl_nil]
        rw [if_neg hky]
      · have hxr : x = r := List.mem_singleton.mp h2
        subst hxr
        simp

/-- When every row's key is already present, the upsert only performs
in-place updates. -/
theorem upsertBy_all_present {α β : Type} [DecidableEq β] (key : α → β) :
    ∀ (rows tbl : List α), (∀ r ∈ rows, key r ∈ tbl.map key) →
      upsertBy key tbl rows = rows.foldl (updateRow key) tbl := by
  intro rows
  induction rows with
  | nil => intro tbl _; rfl
  | cons r rest ih =>
    intro tbl h
    show upsertBy key (upsertStep key tbl r) rest = _
    have hc : tbl.any (fun x => decide (key x = key r)) = true :=
      (any_key_eq_true_iff key tbl r).mpr (h r (List.mem_cons_self ..))
    have hstep : upsertStep key tbl r = updateRow key tbl r := by
      unfold upsertStep; rw [if_pos hc]
    rw [hstep]
    have hrest : ∀ r' ∈ rest, key r' ∈ (updateRow key tbl r).map key := by
      intro r' hr'
      rw [updateRow_map_key]
      exact h r' (List.mem_cons_of_mem _ hr')
    rw [ih (updateRow key tbl r) hrest]
    rfl

/-- Replaying updates acts pointwise on the table: each stored row
evolves by the fold of the incoming rows matching its (unchanged) key. -/
theorem foldl_updateRow_eq_map {α β : Type} [DecidableEq β] (key : α → β) :
    ∀ (rows tbl : List α),
      rows.foldl (updateRow key) tbl =
        tbl.map (fun x => rows.foldl (fun v r => if key r = key x then r else v) x) := by
  intro rows
  induction rows with
  | nil => intro tbl; simp
  | cons r rest ih =>
    intro tbl
    show rest.foldl (updateRow key) (updateRow key tbl r) = _
    rw [ih (updateRow key tbl r)]
    unfold updateRow
    rw [List.map_map]
    apply List.map_congr_left
    intro x _
    show rest.foldl (fun v r' => if key r' = key (if key x = key r then r else x) then r' else v)
        (if key x = key r then r else x) = _
    by_cases h : key x = key r
    · rw [if_pos h]
      simp only [List.foldl_cons]
      rw [if_pos h.symm, h]
    · rw [if_neg h]
      simp only [List.foldl_cons]
      rw [if_neg (fun he : key r = key x => h he.symm)]

/-- Exact idempotence of the upsert writer: applying the same record
set twice equals applying it once. -/
theorem upsertBy_idem {α β : Type} [DecidableEq β] (key : α → β)
    (tbl rows : List α) :
    upsertBy key (upsertBy key tbl rows) rows = upsertBy key tbl rows := by
  have hall : ∀ r ∈ rows, key r ∈ (upsertBy key tbl rows).map key := by
    intro r hr
    exact upsertBy_adds_keys key rows tbl r hr
  rw [upsertBy_all_present key rows _ hall, foldl_updateRow_eq_map]
  have hfix : ∀ x ∈ upsertBy key tbl rows,
      rows.foldl (fun v r => if key r = key x then r else v) x = x :=
    upsertBy_chain_fixed key rows tbl
  calc (upsertBy key tbl rows).map
        (fun x => rows.foldl (fun v r => if key r = key x then r else v) x)
      = (upsertBy key tbl rows).map id := List.map_congr_left (fun x hx => hfix x hx)
    _ = upsertBy key tbl rows := List.map_id _

/-- The upsert writer never creates duplicate natural keys. -/
theorem upsertBy_nodupKeys {α β : Type} [DecidableEq β] (key : α → β) :
    ∀ (rows tbl : List α), NodupKeys key tbl → NodupKeys key (upsertBy key tbl rows) := by
  intro rows
  induction rows with
  | nil => intro tbl h; exact h
  | cons r rest ih =>
    intro tbl h
    show NodupKeys key (upsertBy key (upsertStep key tbl r) rest)
    apply ih
    unfold upsertStep
    split
    · unfold NodupKeys
      rwa [updateRow_map_key]
    · next hc =>
      unfold NodupKeys
      rw [List.map_append]
      simp only [List.map_cons, List.map_nil]
      rw [List.nodup_append]
      refine ⟨h, List.nodup_singleton _, ?_⟩
      intro b hb
      simp only [List.mem_singleton]
      intro hbe
      apply hc
      rw [any_key_eq_true_iff]
      exact hbe ▸ hb

/-- Rows with fresh keys are purely appended: the pre-existing rows are
preserved verbatim as a prefix. -/
theorem upsertBy_fresh_append {α β : Type} [DecidableEq β] (key : α → β) :
    ∀ (rows tbl0 suf0 : List α), (∀ r ∈ rows, key r ∉ tbl0.map key) →
      ∃ suf, upsertBy key (tbl0 ++ suf0) rows = tbl0 ++ suf ∧
        ∀ s ∈ suf, s ∈ suf0 ∨ s ∈ rows := by
  intro rows
  induction rows with
  | nil =>
    intro tbl0 suf0 _
    exact ⟨suf0, rfl, fun s hs => Or.inl hs⟩
  | cons r rest ih =>
    intro tbl0 suf0 h
    show ∃ suf, upsertBy key (upsertStep key (tbl0 ++ suf0) r) rest = tbl0 ++ suf ∧ _
    have hr0 : key r ∉ tbl0.map key := h r (List.mem_cons_self ..)
    unfold upsertStep
    split
    · have h1 : tbl0.map (fun x => if key x = key r then r else x) = tbl0 := by
        calc tbl0.map (fun x => if key x = key r then r else x)
            = tbl0.map id := List.map_congr_left (fun x hx =>
              if_neg (fun he : key x = key r => hr0 (he ▸ List.mem_map_of_mem key hx)))
          _ = tbl0 := List.map_id _
      have hupd : updateRow key (tbl0 ++ suf0) r = tbl0 ++ updateRow key suf0 r := by
        unfold updateRow
        rw [List.map_append, h1]
      rw [hupd]
      rcases ih tbl0 (updateRow key suf0 r) (fun r' hr' => h r' (List.mem_cons_of_mem _ hr'))
        with ⟨suf, hsuf, hmem⟩
      refine ⟨suf, hsuf, ?_⟩
      intro s hs
      rcases hmem s hs with hs1 | hs1
      · unfold updateRow at hs1
        rcases List.mem_map.mp hs1 with ⟨x, hx, hxe⟩
        by_cases hxk : key x = key r
        · rw [if_pos hxk] at hxe
          exact Or.inr (hxe ▸ List.mem_cons_self ..)
        · rw [if_neg hxk] at hxe
          exact Or.inl (hxe ▸ hx)
      · exact Or.inr (List.mem_cons_of_mem _ hs1)
    · rw [List.append_assoc]
      rcases ih tbl0 (suf0 ++ [r]) (fun r' hr' => h r' (List.mem_cons_of_mem _ hr'))
        with ⟨suf, hsuf, hmem⟩
      refine ⟨suf, hsuf, ?_⟩
      intro s hs
      rcases hmem s hs with hs1 | hs1
      · rcases List.mem_append.mp hs1 with hs2 | hs2
        · exact Or.inl hs2
        · exact Or.inr (List.mem_singleton.mp hs2 ▸ List.mem_cons_self ..)
      · exact Or.inr (List.mem_cons_of_mem _ hs1)

/-- Splitting a record set into chunks and folding the upsert writer
over them covers each record exactly once in the original order. -/
theorem chunks_flatten {α : Type} (bs : Nat) (hbs : 0 < bs) :
    ∀ (l : List α), (chunks bs l).flatten = l := by
  have hgen : ∀ (n : Nat) (l : List α), l.length ≤ n → (chunks bs l).flatten = l := by
    intro n
    induction n with
    | zero =>
      intro l h
      cases l with
      | nil => rfl
      | cons x xs => simp at h
    | succ n ih =>
      intro l h
      cases l with
      | nil => rfl
      | cons x xs =>
        rw [chunks_cons, List.flatten_cons]
        have hlen : (xs.drop (bs - 1)).length ≤ n := by
          simp only [List.length_cons] at h
          simp only [List.length_drop]
          omega
        rw [ih (xs.drop (bs - 1)) hlen]
        rcases Nat.exists_eq_add_of_lt hbs with ⟨b, hb⟩
        have hbs' : bs = b + 1 := by omega
        subst hbs'
        rw [List.take_succ_cons]
        simp only [Nat.add_sub_cancel]
        rw [List.cons_append, List.take_append_drop]
  intro l
  exact hgen l.length l (le_refl _)

theorem chunks_length_le {α : Type} (bs : Nat) :
    ∀ (l : List α) (c : List α), c ∈ chunks bs l → c.length ≤ bs := by
  have hgen : ∀ (n : Nat) (l : List α), l.length ≤ n →
      ∀ c ∈ chunks bs l, c.length ≤ bs := by
    intro n
    induction n with
    | zero =>
      intro l h c hc
      cases l with
      | nil => cases hc
      | cons x xs => simp at h
    | succ n ih =>
      intro l h c hc
      cases l with
      | nil => cases hc
      | cons x xs =>
        rw [chunks_cons] at hc
        rcases List.mem_cons.mp hc with h1 | h1
        · subst h1
          simp [List.length_take]
        · have hlen : (xs.drop (bs - 1)).length ≤ n := by
            simp only [List.length_cons] at h
            simp only [List.length_drop]
            omega
          exact ih (xs.drop (bs - 1)) hlen c h1
  intro l c hc
  exact hgen l.length l (le_refl _) c hc

/-- Folding the upsert over any chunk list equals one unsplit upsert of
the concatenation. -/
theorem foldl_upsertBy_flatten {α β : Type} [DecidableEq β] (key : α → β) :
    ∀ (cs : List (List α)) (tbl : List α),
      cs.foldl (upsertBy key) tbl = upsertBy key tbl cs.flatten := by
  intro cs
  induction cs with
  | nil => intro tbl; rfl
  | cons c rest ih =>
    intro tbl
    rw [List.foldl_cons, ih (upsertBy key tbl c), List.flatten_cons, upsertBy_append]

/-- Batch-splitting transparency: the chunked write equals the unsplit
write. -/
theorem chunked_upsert_eq {α β : Type} [DecidableEq β] (key : α → β)
    (bs : Nat) (hbs : 0 < bs) (tbl rows : List α) :
    (chunks bs rows).foldl (upsertBy key) tbl = upsertBy key tbl rows := by
  rw [foldl_upsertBy_flatten, chunks_flatten bs hbs]

/-- The merge utility's deck selection from the imported snapshot:
`id NOT IN (target deck ids) AND player IN (target player names)`.
Note: no event-existence condition appears in this query. -/
def mergeSelectDecks (snap tgt : DB) : List Deck :=
  snap.decks.filter (fun d =>
    !(decide (d.id ∈ tgt.decks.map (·.id))) &&
    decide (d.player ∈ tgt.players.map (·.name)))

/-- The merge utility's match selection from the imported snapshot:
`(event_id, round, player) NOT IN (target match keys) AND player IN
(target player names) AND event_id IN (target event ids)`. -/
def mergeSelectMatches (snap tgt : DB) : List MatchRow :=
  snap.matches'.filter (fun m =>
    !(decide (matchKey m ∈ tgt.matches'.map matchKey)) &&
    decide (m.player ∈ tgt.players.map (·.name)) &&
    decide (m.event_id ∈ tgt.events.map (·.id)))

/-- The merge utility's standing selection from the imported snapshot:
`(event_id, player) NOT IN (target standing keys) AND player IN
(target player names) AND event_id IN (target event ids)`. -/
def mergeSelectStandings (snap tgt : DB) : List Standing :=
  snap.standings.filter (fun s =>
    !(decide (standingKey s ∈ tgt.standings.map standingKey)) &&
    decide (s.player ∈ tgt.players.map (·.name)) &&
    decide (s.event_id ∈ tgt.events.map (·.id)))

/-- Modelled from the spec: the target schema's referential constraints
(its DDL is outside the reimplemented core, accessed only through the
connection interface) — "the target enforces foreign-key-style
referential correctness", so a dependent deck row is accepted only when
its referenced player name and event id exist on the target. -/
def deckRefOk (db : DB) (d : Deck) : Bool :=
  db.players.any (fun p => decide (p.name = d.player)) &&
  db.events.any (fun e => decide (e.id = d.event_id))

/-- Modelled from the spec: referential acceptance of a match row
(player name and event id must exist on the target). -/
def matchRefOk (db : DB) (m : MatchRow) : Bool :=
  db.players.any (fun p => decide (p.name = m.player)) &&
  db.events.any (fun e => decide (e.id = m.event_id))

/-- Modelled from the spec: referential acceptance of a standing row
(player name and event id must exist on the target). -/
def standingRefOk (db : DB) (s : Standing) : Bool :=
  db.players.any (fun p => decide (p.name = s.player)) &&
  db.events.any (fun e => decide (e.id = s.event_id))

/-- The merge utility's per-deck insert loop
(`INSERT .. ON CONFLICT (id) DO NOTHING` inside try/catch): an
id-conflicting row is a counted no-op; a fresh row is inserted and
counted when the referential check passes; otherwise the constraint
violation is caught, logged, and the loop continues.  Returns the
database, the success counter (`stats.decks`), and the number of logged
constraint-violation skips. -/
def mergeDecksLoop : DB → Nat → Nat → List Deck → DB × Nat × Nat
  | db, n, k, [] => (db, n, k)
  | db, n, k, d :: rest =>
    if db.decks.any (fun x => decide (x.id = d.id)) then
      mergeDecksLoop db (n + 1) k rest
    else if deckRefOk db d then
      mergeDecksLoop { db with decks := db.decks ++ [d] } (n + 1) k rest
    else
      mergeDecksLoop db n (k + 1) rest

/-- The merge utility's per-match insert loop
(`ON CONFLICT (event_id, round, player) DO NOTHING` inside try/catch). -/
def mergeMatchesLoop : DB → Nat → Nat → List MatchRow → DB × Nat × Nat
  | db, n, k, [] => (db, n, k)
  | db, n, k, m :: rest =>
    if db.matches'.any (fun x => decide (matchKey x = matchKey m)) then
      mergeMatchesLoop db (n + 1) k rest
    else if matchRefOk db m then
      mergeMatchesLoop { db with matches' := db.matches' ++ [m] } (n + 1) k rest
    else
      mergeMatchesLoop db n (k + 1) rest

/-- The merge utility's per-standing insert loop
(`ON CONFLICT (event_id, player) DO NOTHING` inside try/catch). -/
def mergeStandingsLoop : DB → Nat → Nat → List Standing → DB × Nat × Nat
  | db, n, k, [] => (db, n, k)
  | db, n, k, s :: rest =>
    if db.standings.any (fun x => decide (standingKey x = standingKey s)) then
      mergeStandingsLoop db (n + 1) k rest
    else if standingRefOk db s then
      mergeStandingsLoop { db with standings := db.standings ++ [s] } (n + 1) k rest
    else
      mergeStandingsLoop db n (k + 1) rest

/-- Whether the assignment loop reaches the synthesis branch for a
name: no upstream id was found, or the upstream id positively collides
with an id already used on the target. -/
def synthAssigned (ups : List Player) (lids : List Int) (n : String) : Bool :=
  match lookupName ups n with
  | none => true
  | some i => decide (0 < i) && decide (i ∈ lids)

theorem foldl_min_le_init (xs : List Int) : ∀ (a : Int), xs.foldl min a ≤ a := by
  induction xs with
  | nil => intro a; exact le_refl a
  | cons y ys ih =>
    intro a
    calc ys.foldl min (min a y) ≤ min a y := ih (min a y)
      _ ≤ a := min_le_left ..

theorem foldl_min_le_mem (xs : List Int) :
    ∀ (a : Int) (x : Int), x ∈ xs → xs.foldl min a ≤ x := by
  induction xs with
  | nil => intro a x h; cases h
  | cons y ys ih =>
    intro a x h
    rcases List.mem_cons.mp h with h1 | h1
    · subst h1
      calc ys.foldl min (min a x) ≤ min a x := foldl_min_le_init ..
        _ ≤ x := min_le_right ..
    · exact ih (min a y) x h1

theorem minNegativeId_le_mem (xs : List Int) (x : Int) (hx : x ∈ xs) :
    minNegativeId xs ≤ x := by
  cases xs with
  | nil => cases hx
  | cons y ys =>
    rcases List.mem_cons.mp hx with h1 | h1
    · subst h1
      exact foldl_min_le_init ys x
    · exact foldl_min_le_mem ys y x h1


theorem assignPlayers_cons (ups : List Player) (lns : List String) (lids : List Int)
    (n : String) (rest : List String) (next : Int) :
    assignPlayers ups lns lids (n :: rest) next =
      if n ∈ lns then assignPlayers ups lns lids rest next
      else
        match lookupName ups n with
        | some i =>
          if 0 < i ∧ i ∈ lids then
            ⟨next, n⟩ :: assignPlayers ups lns lids rest (next - 1)
          else
            ⟨i, n⟩ :: assignPlayers ups lns lids rest next
        | none => ⟨next, n⟩ :: assignPlayers ups lns lids rest (next - 1) := rfl

theorem assignPlayers_cons_skip (ups : List Player) (lns : List String) (lids : List Int)
    (n : String) (rest : List String) (next : Int) (h : n ∈ lns) :
    assignPlayers ups lns lids (n :: rest) next = assignPlayers ups lns lids rest next := by
  rw [assignPlayers_cons, if_pos h]

theorem assignPlayers_cons_found (ups : List Player) (lns : List String) (lids : List Int)
    (n : String) (rest : List String) (next : Int) (i : Int)
    (h : n ∉ lns) (hl : lookupName ups n = some i) :
    assignPlayers ups lns lids (n :: rest) next =
      if 0 < i ∧ i ∈ lids then
        ⟨next, n⟩ :: assignPlayers ups lns lids rest (next - 1)
      else
        ⟨i, n⟩ :: assignPlayers ups lns lids rest next := by
  rw [assignPlayers_cons, if_neg h, hl]

theorem assignPlayers_cons_absent (ups : List Player) (lns : List String) (lids : List Int)
    (n : String) (rest : List String) (next : Int)
    (h : n ∉ lns) (hl : lookupName ups n = none) :
    assignPlayers ups lns lids (n :: rest) next =
      ⟨next, n⟩ :: assignPlayers ups lns lids rest (next - 1) := by
  rw [assignPlayers_cons, if_neg h, hl]

/-- The loop emits exactly one row per not-yet-local name, in order. -/
theorem assignPlayers_names (ups : List Player) (lns : List String) (lids : List Int) :
    ∀ (names : List String) (next : Int),
      (assignPlayers ups lns lids names next).map (·.name) =
        names.filter (fun n => !(decide (n ∈ lns))) := by
  intro names
  induction names with
  | nil => intro next; rfl
  | cons n rest ih =>
    intro next
    by_cases h : n ∈ lns
    · rw [assignPlayers_cons_skip ups lns lids n rest next h]
      rw [List.filter_cons_of_neg (by simp [h])]
      exact ih next
    · rw [List.filter_cons_of_pos (by simp [h])]
      cases hl : lookupName ups n with
      | some i =>
        rw [assignPlayers_cons_found ups lns lids n rest next i h hl]
        by_cases hcol : 0 < i ∧ i ∈ lids
        · rw [if_pos hcol]
          simp only [List.map_cons]
          rw [ih (next - 1)]
        · rw [if_neg hcol]
          simp only [List.map_cons]
          rw [ih next]
      | none =>
        rw [assignPlayers_cons_absent ups lns lids n rest next h hl]
        simp only [List.map_cons]
        rw [ih (next - 1)]

/-- Adopted rows carry exactly the upstream id, and only when it does
not positively collide with an already-used target id. -/
theorem assignPlayers_adopted (ups : List Player) (lns : List String) (lids : List Int) :
    ∀ (names : List String) (next : Int) (p : Player),
      p ∈ assignPlayers ups lns lids names next →
      synthAssigned ups lids p.name = false →
      lookupName ups p.name = some p.id ∧ ¬(0 < p.id ∧ p.id ∈ lids) := by
  intro names
  induction names with
  | nil => intro next p hp; cases hp
  | cons n rest ih =>
    intro next p hp hs
    by_cases h : n ∈ lns
    · rw [assignPlayers_cons_skip ups lns lids n rest next h] at hp
      exact ih next p hp hs
    · cases hl : lookupName ups n with
      | some i =>
        rw [assignPlayers_cons_found ups lns lids n rest next i h hl] at hp
        by_cases hcol : 0 < i ∧ i ∈ lids
        · rw [if_pos hcol] at hp
          rcases List.mem_cons.mp hp with h1 | h1
          · exfalso
            subst h1
            unfold synthAssigned at hs
            simp only [hl] at hs
            simp only [Bool.and_eq_false_iff, decide_eq_false_iff_not] at hs
            rcases hs with hs1 | hs1
            · exact hs1 hcol.1
            · exact hs1 hcol.2
          · exact ih (next - 1) p h1 hs
        · rw [if_neg hcol] at hp
          rcases List.mem_cons.mp hp with h1 | h1
          · subst h1
            exact ⟨hl, hcol⟩
          · exact ih next p h1 hs
      | none =>
        rw [assignPlayers_cons_absent ups lns lids n rest next h hl] at hp
        rcases List.mem_cons.mp hp with h1 | h1
        · exfalso
          subst h1
          unfold synthAssigned at hs
          simp only [hl] at hs
          cases hs
        · exact ih (next - 1) p h1 hs

/-- The synthesized ids are exactly the consecutive decrements
`next, next - 1, ..` in emission order. -/
theorem assignPlayers_synth_run (ups : List Player) (lns : List String) (lids : List Int) :
    ∀ (names : List String) (next : Int),
      ∃ m : Nat,
        ((assignPlayers ups lns lids names next).filter
          (fun p => synthAssigned ups lids p.name)).map (·.id) =
          (List.range m).map (fun j : Nat => next - (j : Int)) := by
  intro names
  induction names with
  | nil => intro next; exact ⟨0, rfl⟩
  | cons n rest ih =>
    intro next
    by_cases h : n ∈ lns
    · rw [assignPlayers_cons_skip ups lns lids n rest next h]
      exact ih next
    · cases hl : lookupName ups n with
      | some i =>
        rw [assignPlayers_cons_found ups lns lids n rest next i h hl]
        by_cases hcol : 0 < i ∧ i ∈ lids
        · rw [if_pos hcol]
          have hsy : synthAssigned ups lids n = true := by
            unfold synthAssigned
            simp [hl, hcol.1, hcol.2]
          rcases ih (next - 1) with ⟨m, hm⟩
          refine ⟨m + 1, ?_⟩
          have hstep : List.filter (fun p : Player => synthAssigned ups lids p.name)
              (⟨next, n⟩ :: assignPlayers ups lns lids rest (next - 1)) =
              ⟨next, n⟩ :: List.filter (fun p : Player => synthAssigned ups lids p.name)
                (assignPlayers ups lns lids rest (next - 1)) := by
            simp [List.filter_cons, hsy]
          rw [hstep]
          simp only [List.map_cons]
          rw [hm]
          rw [List.range_succ_eq_map]
          simp only [List.map_cons, List.map_map, Nat.cast_zero, sub_zero]
          congr 1
          apply List.map_congr_left
          intro j _
          show next - 1 - (j : Int) = next - ((j + 1 : Nat) : Int)
          push_cast
          ring
        · rw [if_neg hcol]
          have hsy : synthAssigned ups lids n = false := by
            unfold synthAssigned
            rw [hl]
            simp only [Bool.and_eq_false_iff, decide_eq_false_iff_not]
            by_cases h1 : 0 < i
            · exact Or.inr (fun h2 => hcol ⟨h1, h2⟩)
            · exact Or.inl h1
          rcases ih next with ⟨m, hm⟩
          refine ⟨m, ?_⟩
          have hstep : List.filter (fun p : Player => synthAssigned ups lids p.name)
              (⟨i, n⟩ :: assignPlayers ups lns lids rest next) =
              List.filter (fun p : Player => synthAssigned ups lids p.name)
                (assignPlayers ups lns lids rest next) := by
            simp [List.filter_cons, hsy]
          rw [hstep]
          exact hm
      | none =>
        rw [assignPlayers_cons_absent ups lns lids n rest next h hl]
        have hsy : synthAssigned ups lids n = true := by
          unfold synthAssigned
          rw [hl]
        rcases ih (next - 1) with ⟨m, hm⟩
        refine ⟨m + 1, ?_⟩
        have hstep : List.filter (fun p : Player => synthAssigned ups lids p.name)
            (⟨next, n⟩ :: assignPlayers ups lns lids rest (next - 1)) =
            ⟨next, n⟩ :: List.filter (fun p : Player => synthAssigned ups lids p.name)
              (assignPlayers ups lns lids rest (next - 1)) := by
          simp [List.filter_cons, hsy]
        rw [hstep]
        simp only [List.map_cons]
        rw [hm]
        rw [List.range_succ_eq_map]
        simp only [List.map_cons, List.map_map, Nat.cast_zero, sub_zero]
        congr 1
        apply List.map_congr_left
        intro j _
        show next - 1 - (j : Int) = next - ((j + 1 : Nat) : Int)
        push_cast
        ring

theorem insertPlayersDoNothing_cons (acc : List Player) (r : Player) (rest : List Player) :
    insertPlayersDoNothing acc (r :: rest) =
      insertPlayersDoNothing
        (if acc.any (fun q => decide (q.name = r.name)) then acc else acc ++ [r]) rest := rfl

/-- The DO NOTHING insert only appends rows, and only rows whose name
was not yet present. -/
theorem insertPlayersDoNothing_spec :
    ∀ (rows acc : List Player), ∃ suf,
      insertPlayersDoNothing acc rows = acc ++ suf ∧
      ∀ p ∈ suf, p ∈ rows ∧ ∀ q ∈ acc, q.name ≠ p.name := by
  intro rows
  induction rows with
  | nil =>
    intro acc
    exact ⟨[], by simp [insertPlayersDoNothing], fun p hp => absurd hp (List.not_mem_nil p)⟩
  | cons r rest ih =>
    intro acc
    rw [insertPlayersDoNothing_cons]
    by_cases h : acc.any (fun q => decide (q.name = r.name)) = true
    · rw [if_pos h]
      rcases ih acc with ⟨suf, he, hp⟩
      exact ⟨suf, he, fun p hps =>
        ⟨List.mem_cons_of_mem _ (hp p hps).1, (hp p hps).2⟩⟩
    · rw [if_neg h]
      rcases ih (acc ++ [r]) with ⟨suf, he, hp⟩
      refine ⟨r :: suf, ?_, ?_⟩
      · rw [he, List.append_assoc]
        rfl
      · intro p hps
        rcases List.mem_cons.mp hps with h1 | h1
        · subst h1
          refine ⟨List.mem_cons_self .., ?_⟩
          intro q hq he2
          apply h
          exact List.any_eq_true.mpr ⟨q, hq, decide_eq_true he2⟩
        · refine ⟨List.mem_cons_of_mem _ (hp p h1).1, ?_⟩
          intro q hq
          exact (hp p h1).2 q (List.mem_append_left _ hq)

/-- When the incoming rows have pairwise-distinct names, all fresh
relative to the table, the DO NOTHING insert appends them all. -/
theorem insertPlayersDoNothing_fresh :
    ∀ (rows tbl : List Player), (rows.map (·.name)).Nodup →
      (∀ p ∈ rows, ∀ q ∈ tbl, q.name ≠ p.name) →
      insertPlayersDoNothing tbl rows = tbl ++ rows := by
  intro rows
  induction rows with
  | nil => intro tbl _ _; simp [insertPlayersDoNothing]
  | cons r rest ih =>
    intro tbl hnd hfresh
    rw [insertPlayersDoNothing_cons]
    have hany : tbl.any (fun q => decide (q.name = r.name)) = false := by
      rw [List.any_eq_false]
      intro q hq
      simp only [decide_eq_true_eq]
      exact hfresh r (List.mem_cons_self ..) q hq
    rw [hany]
    simp only [Bool.false_eq_true, if_false]
    have hnd' : (rest.map (·.name)).Nodup := by
      simp only [List.map_cons, List.nodup_cons] at hnd
      exact hnd.2
    have hfresh' : ∀ p ∈ rest, ∀ q ∈ tbl ++ [r], q.name ≠ p.name := by
      intro p hp q hq
      rcases List.mem_append.mp hq with h1 | h1
      · exact hfresh p (List.mem_cons_of_mem _ hp) q h1
      · rw [List.mem_singleton.mp h1]
        simp only [List.map_cons, List.nodup_cons] at hnd
        intro he
        exact hnd.1 (he ▸ List.mem_map_of_mem (fun x => x.name) hp)
    rw [ih (tbl ++ [r]) hnd' hfresh', List.append_assoc]
    rfl

theorem syncPlayers_players (src tgt : DB) (ids : List Int) :
    ((syncPlayers src tgt ids).1).players =
      if ids.isEmpty then tgt.players
      else if (referencedPlayerNames src ids).isEmpty then tgt.players
      else insertPlayersDoNothing tgt.players (playersToSync src tgt ids) := by
  unfold syncPlayers
  split
  · rfl
  split
  · rfl
  · rfl

theorem syncPlayers_shape (src tgt : DB) (ids : List Int) :
    ∃ pl, (syncPlayers src tgt ids).1 = { tgt with players := pl } := by
  unfold syncPlayers
  split
  · exact ⟨tgt.players, rfl⟩
  split
  · exact ⟨tgt.players, rfl⟩
  exact ⟨_, rfl⟩

theorem syncEvents_shape (tgt : DB) (evs : List EventRecord) :
    ∃ es, (syncEvents tgt evs).1 = { tgt with events := es } := by
  unfold syncEvents
  split
  · exact ⟨tgt.events, rfl⟩
  exact ⟨_, rfl⟩

theorem syncEvents_events (tgt : DB) (evs : List EventRecord) :
    ((syncEvents tgt evs).1).events =
      if evs.isEmpty then tgt.events else upsertBy eventKey tgt.events evs := by
  unfold syncEvents
  split
  · rfl
  · rfl

theorem syncStandings_shape (src tgt : DB) (ids : List Int) :
    ∃ st, (syncStandings src tgt ids).1 = { tgt with standings := st } := by
  unfold syncStandings
  split
  · exact ⟨tgt.standings, rfl⟩
  dsimp only
  split
  · exact ⟨tgt.standings, rfl⟩
  exact ⟨_, rfl⟩

theorem syncStandings_standings (src tgt : DB) (ids : List Int) :
    ((syncStandings src tgt ids).1).standings =
      upsertBy standingKey tgt.standings
        (if ids.isEmpty then []
         else (src.standings.filter
           (fun s => decide (s.event_id ∈ ids))).insertionSort standingsBefore) := by
  unfold syncStandings
  split
  · rfl
  dsimp only
  split
  · next h2 => rw [List.isEmpty_iff.mp h2]; rfl
  · exact chunked_upsert_eq standingKey 8000 (by norm_num) ..

theorem syncMatches_shape (src tgt : DB) (ids : List Int) :
    ∃ ms, (syncMatches src tgt ids).1 = { tgt with matches' := ms } := by
  unfold syncMatches
  split
  · exact ⟨tgt.matches', rfl⟩
  dsimp only
  split
  · exact ⟨tgt.matches', rfl⟩
  exact ⟨_, rfl⟩

theorem syncMatches_matches (src tgt : DB) (ids : List Int) :
    ((syncMatches src tgt ids).1).matches' =
      upsertBy matchKey tgt.matches'
        (if ids.isEmpty then []
         else (src.matches'.filter
           (fun m => decide (m.event_id ∈ ids))).insertionSort matchesBefore) := by
  unfold syncMatches
  split
  · rfl
  dsimp only
  split
  · next h2 => rw [List.isEmpty_iff.mp h2]; rfl
  · exact chunked_upsert_eq matchKey 7000 (by norm_num) ..

theorem syncDecks_shape (src tgt : DB) (ids : List Int) :
    ∃ ds, (syncDecks src tgt ids).1 = { tgt with decks := ds } := by
  unfold syncDecks
  split
  · exact ⟨tgt.decks, rfl⟩
  dsimp only
  split
  · exact ⟨tgt.decks, rfl⟩
  exact ⟨_, rfl⟩

theorem syncDecks_decks (src tgt : DB) (ids : List Int) :
    ((syncDecks src tgt ids).1).decks =
      upsertBy deckKey tgt.decks
        (if ids.isEmpty then []
         else (src.decks.filter
           (fun d => decide (d.event_id ∈ ids))).insertionSort decksBefore) := by
  unfold syncDecks
  split
  · rfl
  dsimp only
  split
  · next h2 => rw [List.isEmpty_iff.mp h2]; rfl
  · exact chunked_upsert_eq deckKey 13000 (by norm_num) ..

theorem syncArchetypes_shape (src tgt : DB) (ids : List Int) :
    ∃ ar, (syncArchetypes src tgt ids).1 = { tgt with archetypes := ar } := by
  unfold syncArchetypes
  split
  · exact ⟨tgt.archetypes, rfl⟩
  dsimp only
  split
  · exact ⟨tgt.archetypes, rfl⟩
  split
  · exact ⟨tgt.archetypes, rfl⟩
  exact ⟨_, rfl⟩

instance : IsTotal (Int × String × Int) incompleteBefore :=
  ⟨by intro a b; unfold incompleteBefore; omega⟩

instance : IsTrans (Int × String × Int) incompleteBefore :=
  ⟨by intro a b c hab hbc; unfold incompleteBefore at hab hbc ⊢; omega⟩

theorem incompletePred_true_iff (db : DB) (e : EventRecord) :
    incompletePred db e = true ↔
      0 < e.players.getD 0 ∧
        ((∀ s ∈ db.standings, s.event_id ≠ e.id) ∨
         (∀ m ∈ db.matches', m.event_id ≠ e.id)) := by
  unfold incompletePred
  simp [List.any_eq_true, List.any_eq_false]

theorem incompletePred_false_iff (db : DB) (e : EventRecord) :
    incompletePred db e = false ↔
      ¬(0 < e.players.getD 0) ∨
        ((∃ s ∈ db.standings, s.event_id = e.id) ∧
         (∃ m ∈ db.matches', m.event_id = e.id)) := by
  rw [← Bool.not_eq_true, incompletePred_true_iff]
  constructor
  · intro h
    by_cases hp : 0 < e.players.getD 0
    · refine Or.inr ?_
      constructor
      · by_contra hs
        push_neg at hs
        exact h ⟨hp, Or.inl (fun s hsm he => hs s hsm he)⟩
      · by_contra hm
        push_neg at hm
        exact h ⟨hp, Or.inr (fun m hmm he => hm m hmm he)⟩
    · exact Or.inl hp
  · intro h hc
    rcases h with h | ⟨⟨s, hs, hse⟩, ⟨m, hm, hme⟩⟩
    · exact h hc.1
    · rcases hc.2 with hg | hg
      · exact hg s hs hse
      · exact hg m hm hme

/-- C2: the diff engine classifies a locally-present event as
incomplete exactly when its player count is nonzero and it lacks
Standing rows or lacks Match rows (completeness holding whenever the
result is not truncated by the 100-event recency bound); Deck rows
never influence the classification; the selected rows are ordered by
date descending and the result is bounded by 100. -/
theorem getIncompleteEventIds_spec (tgt : DB) :
    (∀ i ∈ getIncompleteEventIds tgt, ∃ e ∈ tgt.events, e.id = i ∧
        0 < e.players.getD 0 ∧
        ((∀ s ∈ tgt.standings, s.event_id ≠ i) ∨
         (∀ m ∈ tgt.matches', m.event_id ≠ i))) ∧
    ((((tgt.events.filter (incompletePred tgt)).map
        (fun e => (e.id, e.name, e.date))).dedup.length ≤ 100 →
      ∀ e ∈ tgt.events, incompletePred tgt e = true →
        e.id ∈ getIncompleteEventIds tgt)) ∧
    (∀ ds, getIncompleteEventIds { tgt with decks := ds } = getIncompleteEventIds tgt) ∧
    ((incompleteSelected tgt).Pairwise (fun a b => b.2.2 ≤ a.2.2)) ∧
    ((getIncompleteEventIds tgt).length ≤ 100) := by
  refine ⟨?_, ?_, ?_, ?_, ?_⟩
  · intro i hi
    rcases List.mem_map.mp hi with ⟨t, ht, hti⟩
    have ht2 : t ∈ (((tgt.events.filter (incompletePred tgt)).map
        (fun e => (e.id, e.name, e.date))).dedup).insertionSort incompleteBefore :=
      List.mem_of_mem_take ht
    have ht3 : t ∈ ((tgt.events.filter (incompletePred tgt)).map
        (fun e => (e.id, e.name, e.date))).dedup :=
      (List.perm_insertionSort incompleteBefore _).mem_iff.mp ht2
    have ht4 : t ∈ (tgt.events.filter (incompletePred tgt)).map
        (fun e => (e.id, e.name, e.date)) := List.mem_dedup.mp ht3
    rcases List.mem_map.mp ht4 with ⟨e, he, het⟩
    rcases List.mem_filter.mp he with ⟨hee, hep⟩
    rcases (incompletePred_true_iff tgt e).mp hep with ⟨hp, hcond⟩
    have hid : e.id = i := by rw [← hti, ← het]
    exact ⟨e, hee, hid, hp, hid ▸ hcond⟩
  · intro hlen e he hp
    have ht : (e.id, e.name, e.date) ∈ (tgt.events.filter (incompletePred tgt)).map
        (fun e => (e.id, e.name, e.date)) :=
      List.mem_map_of_mem _ (List.mem_filter.mpr ⟨he, hp⟩)
    have ht2 : (e.id, e.name, e.date) ∈ ((tgt.events.filter (incompletePred tgt)).map
        (fun e => (e.id, e.name, e.date))).dedup := List.mem_dedup.mpr ht
    have ht3 : (e.id, e.name, e.date) ∈ (((tgt.events.filter (incompletePred tgt)).map
        (fun e => (e.id, e.name, e.date))).dedup).insertionSort incompleteBefore :=
      (List.perm_insertionSort incompleteBefore _).mem_iff.mpr ht2
    have hslen : ((((tgt.events.filter (incompletePred tgt)).map
        (fun e => (e.id, e.name, e.date))).dedup).insertionSort incompleteBefore).length ≤ 100 := by
      rw [(List.perm_insertionSort incompleteBefore _).length_eq]
      exact hlen
    have htake : incompleteSelected tgt = (((tgt.events.filter (incompletePred tgt)).map
        (fun e => (e.id, e.name, e.date))).dedup).insertionSort incompleteBefore := by
      unfold incompleteSelected
      exact List.take_of_length_le hslen
    apply List.mem_map.mpr
    exact ⟨(e.id, e.name, e.date), htake ▸ ht3, rfl⟩
  · intro ds
    rfl
  · have hs : (((((tgt.events.filter (incompletePred tgt)).map
        (fun e => (e.id, e.name, e.date))).dedup).insertionSort
          incompleteBefore)).Pairwise incompleteBefore :=
      List.sorted_insertionSort incompleteBefore _
    have hp : (incompleteSelected tgt).Pairwise incompleteBefore :=
      hs.sublist (List.take_sublist ..)
    exact hp.imp (fun hab => by unfold incompleteBefore at hab; omega)
  · unfold getIncompleteEventIds incompleteSelected
    simp [List.length_take]

/-- Witness for `getIncompleteEventIds_spec`: a target holding one
event with 8 players, some match rows and no standings; the event is
classified incomplete. -/
theorem getIncompleteEventIds_spec_witness :
    (5 : Int) ∈ getIncompleteEventIds
      ⟨[⟨5, "E", 10, "Modern", "League", none, some 8⟩], [], [],
       [⟨1, 5, 1, "A", "B", "1-0", "win", false, ""⟩], [], []⟩ := by
  have h := (getIncompleteEventIds_spec
    ⟨[⟨5, "E", 10, "Modern", "League", none, some 8⟩], [], [],
     [⟨1, 5, 1, "A", "B", "1-0", "win", false, ""⟩], [], []⟩).2.1
  exact h (by decide) ⟨5, "E", 10, "Modern", "League", none, some 8⟩
    (by decide) (by decide)

theorem localFloor_nonpos (tgt : DB) : localFloor tgt ≤ 0 := by
  unfold localFloor
  cases hl : (tgt.players.filter (fun p => decide (p.id < 0))).map (·.id) with
  | nil => simp [minNegativeId]
  | cons x xs =>
    have hx : x ∈ (tgt.players.filter (fun p => decide (p.id < 0))).map (·.id) := by
      rw [hl]; exact List.mem_cons_self ..
    rcases List.mem_map.mp hx with ⟨p, hp, hpe⟩
    have hneg : p.id < 0 := by
      have := (List.mem_filter.mp hp).2
      simpa using this
    have hle : minNegativeId (x :: xs) ≤ x := minNegativeId_le_mem _ x (List.mem_cons_self ..)
    omega

theorem localFloor_le_neg (tgt : DB) (q : Player) (hq : q ∈ tgt.players)
    (hneg : q.id < 0) : localFloor tgt ≤ q.id := by
  unfold localFloor
  apply minNegativeId_le_mem
  exact List.mem_map_of_mem _ (List.mem_filter.mpr ⟨hq, by simpa using hneg⟩)

/-- The original C1 claim, literally: for every referenced name not
already local, exactly one row is issued; a name whose upstream id is
absent, or whose upstream id is already used by an existing (hence
different) target player, receives an id strictly below the target's
lowest currently-used negative id (`-1` when none); any other upstream
id is adopted as-is. -/
def c1ClaimHolds (src tgt : DB) (eventIds : List Int) : Prop :=
  ∀ n ∈ referencedPlayerNames src eventIds, n ∉ tgt.players.map (·.name) →
    ((playersToSync src tgt eventIds).filter (fun p => decide (p.name = n))).length = 1 ∧
    ∀ p ∈ playersToSync src tgt eventIds, p.name = n →
      ((lookupName (upsSel src eventIds) n = none → p.id ≤ localFloor tgt - 1) ∧
       (∀ i ∈ (lookupName (upsSel src eventIds) n).toList,
          if i ∈ tgt.players.map (·.id) then p.id ≤ localFloor tgt - 1
          else p.id = i))

instance (src tgt : DB) (eventIds : List Int) : Decidable (c1ClaimHolds src tgt eventIds) := by
  unfold c1ClaimHolds; exact inferInstance

/-- Counterexample to C1 as stated: the upstream player "Alice" carries
the nonpositive id `-1`, which is already used by the different target
player "Bob"; the claim demands a synthesized id (at most `-2`), but
`syncPlayers` only re-assigns on a collision of a positive id and
adopts `-1` as-is. -/
theorem c1Claim_counterexample :
    ¬ c1ClaimHolds
      ⟨[⟨100, "E", 1, "Modern", "League", none, some 2⟩], [⟨-1, "Alice"⟩],
       [⟨100, 1, "Alice", "2-0", 6, 0, 0, 0⟩], [], [], []⟩
      ⟨[], [⟨-1, "Bob"⟩], [], [], [], []⟩
      [100] := by
  decide

/-- C1 (amended): for every referenced name not already on the target,
exactly one row is issued (so no name ever receives two identifiers in
a run); a name whose upstream id exists is adopted as-is unless that id
is positive and collides with an already-used target id; colliding or
absent names receive the consecutive decrements starting one below the
target's lowest currently-used negative id (`-1` when none exists). -/
theorem syncPlayers_identity_assignment (src tgt : DB) (eventIds : List Int) :
    ((playersToSync src tgt eventIds).map (·.name) =
      (referencedPlayerNames src eventIds).filter
        (fun n => !(decide (n ∈ tgt.players.map (·.name))))) ∧
    ((playersToSync src tgt eventIds).map (·.name)).Nodup ∧
    (∀ p ∈ playersToSync src tgt eventIds,
      synthAssigned (upsSel src eventIds) (tgt.players.map (·.id)) p.name = false →
        lookupName (upsSel src eventIds) p.name = some p.id ∧
          ¬(0 < p.id ∧ p.id ∈ tgt.players.map (·.id))) ∧
    (∃ m, ((playersToSync src tgt eventIds).filter
        (fun p => synthAssigned (upsSel src eventIds) (tgt.players.map (·.id)) p.name)).map
          (·.id) =
      (List.range m).map (fun j : Nat => localFloor tgt - 1 - (j : Int))) ∧
    (localFloor tgt ≤ 0 ∧ ∀ q ∈ tgt.players, q.id < 0 → localFloor tgt ≤ q.id) := by
  refine ⟨?_, ?_, ?_, ?_, localFloor_nonpos tgt, fun q hq hn => localFloor_le_neg tgt q hq hn⟩
  · exact assignPlayers_names ..
  · show (List.map (fun x => x.name) (assignPlayers (upsSel src eventIds)
      (tgt.players.map (·.name)) (tgt.players.map (·.id))
      (referencedPlayerNames src eventIds) (localFloor tgt - 1))).Nodup
    rw [assignPlayers_names]
    exact (List.nodup_dedup _).filter _
  · intro p hp hs
    exact assignPlayers_adopted (upsSel src eventIds) (tgt.players.map (·.name))
      (tgt.players.map (·.id)) (referencedPlayerNames src eventIds) (localFloor tgt - 1)
      p hp hs
  · exact assignPlayers_synth_run ..

/-- Witness for `syncPlayers_identity_assignment`: scenario 2 of the
spec — upstream "Alice" has positive id 7 already used by target
player "Bob", so Alice receives the synthesized id `-1`. -/
theorem syncPlayers_identity_assignment_witness :
    playersToSync
      ⟨[⟨100, "E", 1, "Modern", "League", none, some 2⟩], [⟨7, "Alice"⟩],
       [⟨100, 1, "Alice", "2-0", 6, 0, 0, 0⟩], [], [], []⟩
      ⟨[], [⟨7, "Bob"⟩], [], [], [], []⟩
      [100] = [⟨-1, "Alice"⟩] ∧
    (playersToSync
      ⟨[⟨100, "E", 1, "Modern", "League", none, some 2⟩], [⟨7, "Alice"⟩],
       [⟨100, 1, "Alice", "2-0", 6, 0, 0, 0⟩], [], [], []⟩
      ⟨[], [⟨7, "Bob"⟩], [], [], [], []⟩
      [100]).map (·.name) =
      (referencedPlayerNames
        ⟨[⟨100, "E", 1, "Modern", "League", none, some 2⟩], [⟨7, "Alice"⟩],
         [⟨100, 1, "Alice", "2-0", 6, 0, 0, 0⟩], [], [], []⟩ [100]).filter
        (fun n => !(decide (n ∈ ([⟨7, "Bob"⟩] : List Player).map (·.name)))) := by
  constructor
  · decide
  · exact (syncPlayers_identity_assignment
      ⟨[⟨100, "E", 1, "Modern", "League", none, some 2⟩], [⟨7, "Alice"⟩],
       [⟨100, 1, "Alice", "2-0", 6, 0, 0, 0⟩], [], [], []⟩
      ⟨[], [⟨7, "Bob"⟩], [], [], [], []⟩ [100]).1

/-- C10: the Players stage never modifies a pre-existing player row —
the target's player table is preserved verbatim as a prefix, and every
appended row has a name that no pre-existing row carries (names already
present are skipped and the insert is `ON CONFLICT (name) DO
NOTHING`), so neither the id nor the name of any pre-existing player
row changes. -/
theorem syncPlayers_frame (src tgt : DB) (eventIds : List Int) :
    ∃ suf, ((syncPlayers src tgt eventIds).1).players = tgt.players ++ suf ∧
      ∀ p ∈ suf, p ∈ playersToSync src tgt eventIds ∧
        ∀ q ∈ tgt.players, q.name ≠ p.name := by
  rw [syncPlayers_players]
  by_cases h1 : eventIds.isEmpty
  · rw [if_pos h1]
    exact ⟨[], by simp, fun p hp => absurd hp (List.not_mem_nil p)⟩
  rw [if_neg h1]
  by_cases h2 : (referencedPlayerNames src eventIds).isEmpty
  · rw [if_pos h2]
    exact ⟨[], by simp, fun p hp => absurd hp (List.not_mem_nil p)⟩
  rw [if_neg h2]
  exact insertPlayersDoNothing_spec (playersToSync src tgt eventIds) tgt.players

/-- Witness for `syncPlayers_frame`: the pre-existing row (7, "Bob")
survives a run that inserts "Alice" untouched. -/
theorem syncPlayers_frame_witness :
    ((syncPlayers
      ⟨[⟨100, "E", 1, "Modern", "League", none, some 2⟩], [⟨7, "Alice"⟩],
       [⟨100, 1, "Alice", "2-0", 6, 0, 0, 0⟩], [], [], []⟩
      ⟨[], [⟨7, "Bob"⟩], [], [], [], []⟩
      [100]).1).players = [⟨7, "Bob"⟩, ⟨-1, "Alice"⟩] ∧
    ∃ suf, ((syncPlayers
      ⟨[⟨100, "E", 1, "Modern", "League", none, some 2⟩], [⟨7, "Alice"⟩],
       [⟨100, 1, "Alice", "2-0", 6, 0, 0, 0⟩], [], [], []⟩
      ⟨[], [⟨7, "Bob"⟩], [], [], [], []⟩
      [100]).1).players = [⟨7, "Bob"⟩] ++ suf := by
  constructor
  · decide
  · rcases syncPlayers_frame
      ⟨[⟨100, "E", 1, "Modern", "League", none, some 2⟩], [⟨7, "Alice"⟩],
       [⟨100, 1, "Alice", "2-0", 6, 0, 0, 0⟩], [], [], []⟩
      ⟨[], [⟨7, "Bob"⟩], [], [], [], []⟩ [100] with ⟨suf, hs, _⟩
    exact ⟨suf, hs⟩

theorem players_insert_absorb :
    ∀ (rows tbl : List Player), (∀ r ∈ rows, ∃ q ∈ tbl, q.name = r.name) →
      insertPlayersDoNothing tbl rows = tbl := by
  intro rows
  induction rows with
  | nil => intro tbl _; rfl
  | cons r rest ih =>
    intro tbl h
    rw [insertPlayersDoNothing_cons]
    rcases h r (List.mem_cons_self ..) with ⟨q, hq, hqe⟩
    rw [if_pos (List.any_eq_true.mpr ⟨q, hq, decide_eq_true hqe⟩)]
    exact ih tbl (fun r' hr' => h r' (List.mem_cons_of_mem _ hr'))

theorem players_insert_names_covered :
    ∀ (rows tbl : List Player) (r : Player), r ∈ rows →
      ∃ q ∈ insertPlayersDoNothing tbl rows, q.name = r.name := by
  intro rows
  induction rows with
  | nil => intro tbl r h; cases h
  | cons r0 rest ih =>
    intro tbl r h
    rw [insertPlayersDoNothing_cons]
    rcases List.mem_cons.mp h with h1 | h1
    · subst h1
      by_cases hc : tbl.any (fun q => decide (q.name = r.name)) = true
      · rw [if_pos hc]
        rcases insertPlayersDoNothing_spec rest tbl with ⟨suf, he, _⟩
        rw [he]
        rcases List.any_eq_true.mp hc with ⟨q, hq, hqe⟩
        exact ⟨q, List.mem_append_left _ hq, of_decide_eq_true hqe⟩
      · rw [if_neg hc]
        rcases insertPlayersDoNothing_spec rest (tbl ++ [r]) with ⟨suf, he, _⟩
        rw [he]
        exact ⟨r, List.mem_append_left _
          (List.mem_append_right _ (List.mem_singleton.mpr rfl)), rfl⟩
    · exact ih _ r h1

theorem players_insert_idem (tbl rows : List Player) :
    insertPlayersDoNothing (insertPlayersDoNothing tbl rows) rows =
      insertPlayersDoNothing tbl rows :=
  players_insert_absorb rows _
    (fun r hr => players_insert_names_covered rows tbl r hr)

theorem players_insert_nodupNames :
    ∀ (rows tbl : List Player), (tbl.map (·.name)).Nodup →
      ((insertPlayersDoNothing tbl rows).map (·.name)).Nodup := by
  intro rows
  induction rows with
  | nil => intro tbl h; exact h
  | cons r rest ih =>
    intro tbl h
    rw [insertPlayersDoNothing_cons]
    by_cases hc : tbl.any (fun q => decide (q.name = r.name)) = true
    · rw [if_pos hc]
      exact ih tbl h
    · rw [if_neg hc]
      apply ih
      rw [List.map_append]
      simp only [List.map_cons, List.map_nil]
      rw [List.nodup_append]
      refine ⟨h, List.nodup_singleton _, ?_⟩
      intro b hb
      simp only [List.mem_singleton]
      intro hbe
      apply hc
      rcases List.mem_map.mp hb with ⟨q, hq, hqe⟩
      exact List.any_eq_true.mpr ⟨q, hq, decide_eq_true (by rw [hqe, hbe])⟩

/-- C3: every per-entity writer is exactly idempotent — applying the
same record set twice produces the same table as applying it once —
and never creates duplicate rows under its conflict key (standings:
`(event_id, player)`; matches: `(event_id, round, player)`; decks,
archetypes, events: their `id`; players: `name`); no writer consults
any other column for conflict detection. -/
theorem batched_upsert_idempotent :
    (∀ (tbl rows : List Standing),
      upsertBy standingKey (upsertBy standingKey tbl rows) rows =
        upsertBy standingKey tbl rows ∧
      (NodupKeys standingKey tbl → NodupKeys standingKey (upsertBy standingKey tbl rows))) ∧
    (∀ (tbl rows : List MatchRow),
      upsertBy matchKey (upsertBy matchKey tbl rows) rows = upsertBy matchKey tbl rows ∧
      (NodupKeys matchKey tbl → NodupKeys matchKey (upsertBy matchKey tbl rows))) ∧
    (∀ (tbl rows : List Deck),
      upsertBy deckKey (upsertBy deckKey tbl rows) rows = upsertBy deckKey tbl rows ∧
      (NodupKeys deckKey tbl → NodupKeys deckKey (upsertBy deckKey tbl rows))) ∧
    (∀ (tbl rows : List Archetype),
      upsertBy archetypeKey (upsertBy archetypeKey tbl rows) rows =
        upsertBy archetypeKey tbl rows ∧
      (NodupKeys archetypeKey tbl → NodupKeys archetypeKey (upsertBy archetypeKey tbl rows))) ∧
    (∀ (tbl rows : List EventRecord),
      upsertBy eventKey (upsertBy eventKey tbl rows) rows = upsertBy eventKey tbl rows ∧
      (NodupKeys eventKey tbl → NodupKeys eventKey (upsertBy eventKey tbl rows))) ∧
    (∀ (tbl rows : List Player),
      insertPlayersDoNothing (insertPlayersDoNothing tbl rows) rows =
        insertPlayersDoNothing tbl rows ∧
      ((tbl.map (·.name)).Nodup → ((insertPlayersDoNothing tbl rows).map (·.name)).Nodup)) :=
  ⟨fun tbl rows => ⟨upsertBy_idem standingKey tbl rows, upsertBy_nodupKeys standingKey rows tbl⟩,
   fun tbl rows => ⟨upsertBy_idem matchKey tbl rows, upsertBy_nodupKeys matchKey rows tbl⟩,
   fun tbl rows => ⟨upsertBy_idem deckKey tbl rows, upsertBy_nodupKeys deckKey rows tbl⟩,
   fun tbl rows => ⟨upsertBy_idem archetypeKey tbl rows, upsertBy_nodupKeys archetypeKey rows tbl⟩,
   fun tbl rows => ⟨upsertBy_idem eventKey tbl rows, upsertBy_nodupKeys eventKey rows tbl⟩,
   fun tbl rows => ⟨players_insert_idem tbl rows, players_insert_nodupNames rows tbl⟩⟩

/-- Witness for `batched_upsert_idempotent`: a one-row standings table
whose key stays unique and whose value is overwritten identically by a
repeated write. -/
theorem batched_upsert_idempotent_witness :
    upsertBy standingKey
      (upsertBy standingKey [⟨100, 2, "Alice", "1-1", 3, 0, 0, 0⟩]
        [⟨100, 1, "Alice", "2-0", 6, 0, 0, 0⟩])
      [⟨100, 1, "Alice", "2-0", 6, 0, 0, 0⟩] =
      upsertBy standingKey [⟨100, 2, "Alice", "1-1", 3, 0, 0, 0⟩]
        [⟨100, 1, "Alice", "2-0", 6, 0, 0, 0⟩] ∧
    NodupKeys standingKey
      (upsertBy standingKey [⟨100, 2, "Alice", "1-1", 3, 0, 0, 0⟩]
        [⟨100, 1, "Alice", "2-0", 6, 0, 0, 0⟩]) := by
  refine ⟨(batched_upsert_idempotent.1 [⟨100, 2, "Alice", "1-1", 3, 0, 0, 0⟩]
    [⟨100, 1, "Alice", "2-0", 6, 0, 0, 0⟩]).1,
    (batched_upsert_idempotent.1 [⟨100, 2, "Alice", "1-1", 3, 0, 0, 0⟩]
      [⟨100, 1, "Alice", "2-0", 6, 0, 0, 0⟩]).2 ?_⟩
  decide

/-- The bound on statement parameters noted in the source
(`65,534 parameters`). -/
def PARAM_LIMIT : Nat := 65534

/-- `BATCH_SIZE` of `syncMatches` (9 columns per row). -/
def MATCHES_BATCH_SIZE : Nat := 7000

/-- Columns written per match row. -/
def matchColumnCount : Nat := 9

/-- `BATCH_SIZE` of `syncStandings` (8 columns per row). -/
def STANDINGS_BATCH_SIZE : Nat := 8000

/-- Columns written per standing row. -/
def standingColumnCount : Nat := 8

/-- `BATCH_SIZE` of `syncDecks` and `syncArchetypes` (5 columns per row). -/
def DECKS_BATCH_SIZE : Nat := 13000

/-- Columns written per deck or archetype row. -/
def deckColumnCount : Nat := 5

/-- C6: for every chunk-size bound `bs ≥ 1`, the chunked write covers
each record exactly once in the original order (the chunks flatten
back to the record list), keeps every chunk within `bs` rows, and
produces exactly the table of the unsplit call; under the writers'
actual batch sizes every chunk stays under the statement-parameter
limit. -/
theorem chunked_write_transparency (bs : Nat) (hbs : 0 < bs) :
    (∀ (rows tbl : List MatchRow),
      (chunks bs rows).flatten = rows ∧
      (∀ c ∈ chunks bs rows, c.length ≤ bs) ∧
      (chunks bs rows).foldl (upsertBy matchKey) tbl = upsertBy matchKey tbl rows) ∧
    (∀ (rows : List MatchRow), ∀ c ∈ chunks MATCHES_BATCH_SIZE rows,
      c.length * matchColumnCount < PARAM_LIMIT) ∧
    (∀ (rows : List Standing), ∀ c ∈ chunks STANDINGS_BATCH_SIZE rows,
      c.length * standingColumnCount < PARAM_LIMIT) ∧
    (∀ (rows : List Deck), ∀ c ∈ chunks DECKS_BATCH_SIZE rows,
      c.length * deckColumnCount < PARAM_LIMIT) ∧
    (∀ (rows : List Archetype), ∀ c ∈ chunks DECKS_BATCH_SIZE rows,
      c.length * deckColumnCount < PARAM_LIMIT) ∧
    (∀ (tbl rows : List Standing),
      (chunks STANDINGS_BATCH_SIZE rows).foldl (upsertBy standingKey) tbl =
        upsertBy standingKey tbl rows) ∧
    (∀ (tbl rows : List Deck),
      (chunks DECKS_BATCH_SIZE rows).foldl (upsertBy deckKey) tbl =
        upsertBy deckKey tbl rows) ∧
    (∀ (tbl rows : List Archetype),
      (chunks DECKS_BATCH_SIZE rows).foldl (upsertBy archetypeKey) tbl =
        upsertBy archetypeKey tbl rows) := by
  refine ⟨fun rows tbl => ⟨chunks_flatten bs hbs rows, chunks_length_le bs rows,
      chunked_upsert_eq matchKey bs hbs tbl rows⟩, ?_, ?_, ?_, ?_,
    fun tbl rows => chunked_upsert_eq standingKey STANDINGS_BATCH_SIZE (by decide) tbl rows,
    fun tbl rows => chunked_upsert_eq deckKey DECKS_BATCH_SIZE (by decide) tbl rows,
    fun tbl rows => chunked_upsert_eq archetypeKey DECKS_BATCH_SIZE (by decide) tbl rows⟩
  · intro rows c hc
    have h := chunks_length_le MATCHES_BATCH_SIZE rows c hc
    calc c.length * matchColumnCount ≤ MATCHES_BATCH_SIZE * matchColumnCount :=
        Nat.mul_le_mul_right _ h
      _ < PARAM_LIMIT := by decide
  · intro rows c hc
    have h := chunks_length_le STANDINGS_BATCH_SIZE rows c hc
    calc c.length * standingColumnCount ≤ STANDINGS_BATCH_SIZE * standingColumnCount :=
        Nat.mul_le_mul_right _ h
      _ < PARAM_LIMIT := by decide
  · intro rows c hc
    have h := chunks_length_le DECKS_BATCH_SIZE rows c hc
    calc c.length * deckColumnCount ≤ DECKS_BATCH_SIZE * deckColumnCount :=
        Nat.mul_le_mul_right _ h
      _ < PARAM_LIMIT := by decide
  · intro rows c hc
    have h := chunks_length_le DECKS_BATCH_SIZE rows c hc
    calc c.length * deckColumnCount ≤ DECKS_BATCH_SIZE * deckColumnCount :=
        Nat.mul_le_mul_right _ h
      _ < PARAM_LIMIT := by decide

/-- Witness for `chunked_write_transparency`: splitting three match
rows into chunks of two covers all three in order and produces the
same table as the unsplit write. -/
theorem chunked_write_transparency_witness :
    (chunks 2 [(⟨1, 100, 1, "A", "B", "1-0", "win", false, ""⟩ : MatchRow),
      ⟨2, 100, 1, "B", "A", "0-1", "loss", false, ""⟩,
      ⟨3, 100, 2, "A", "C", "1-0", "win", false, ""⟩]).flatten =
      [(⟨1, 100, 1, "A", "B", "1-0", "win", false, ""⟩ : MatchRow),
       ⟨2, 100, 1, "B", "A", "0-1", "loss", false, ""⟩,
       ⟨3, 100, 2, "A", "C", "1-0", "win", false, ""⟩] ∧
    (chunks 2 [(⟨1, 100, 1, "A", "B", "1-0", "win", false, ""⟩ : MatchRow),
      ⟨2, 100, 1, "B", "A", "0-1", "loss", false, ""⟩,
      ⟨3, 100, 2, "A", "C", "1-0", "win", false, ""⟩]).foldl (upsertBy matchKey) [] =
      upsertBy matchKey []
        [(⟨1, 100, 1, "A", "B", "1-0", "win", false, ""⟩ : MatchRow),
         ⟨2, 100, 1, "B", "A", "0-1", "loss", false, ""⟩,
         ⟨3, 100, 2, "A", "C", "1-0", "win", false, ""⟩] :=
  ⟨((chunked_write_transparency 2 (by decide)).1 _ []).1,
   ((chunked_write_transparency 2 (by decide)).1 _ []).2.2⟩

/-- The resolved event worklist of one run: new upstream events first,
then locally-incomplete events. -/
def worklist (src tgt : DB) : List Int :=
  (getUpstreamEvents src (getLocalEventIds tgt)).map (·.id) ++ getIncompleteEventIds tgt

theorem sync_empty_case (src tgt : DB) (h : (worklist src tgt).isEmpty = true) :
    sync src tgt = ⟨tgt, zeroStats, 0, 0⟩ := by
  unfold worklist at h
  unfold sync
  dsimp only
  rw [if_pos h]

theorem sync_db_stages (src tgt : DB) (h : ¬(worklist src tgt).isEmpty = true) :
    (sync src tgt).db =
      (syncArchetypes src
        (syncDecks src
          (syncMatches src
            (syncStandings src
              ((if (getUpstreamEvents src (getLocalEventIds tgt)).isEmpty then
                  ((syncPlayers src tgt (worklist src tgt)).1, 0)
                else
                  syncEvents (syncPlayers src tgt (worklist src tgt)).1
                    (getUpstreamEvents src (getLocalEventIds tgt))).1)
              (worklist src tgt)).1
            (worklist src tgt)).1
          (worklist src tgt)).1
        (worklist src tgt)).1 := by
  unfold worklist at h ⊢
  unfold sync
  dsimp only
  rw [if_neg h]

theorem syncPlayers_events (src db : DB) (ids : List Int) :
    ((syncPlayers src db ids).1).events = db.events := by
  rcases syncPlayers_shape src db ids with ⟨v, h⟩; rw [h]

theorem syncPlayers_standings (src db : DB) (ids : List Int) :
    ((syncPlayers src db ids).1).standings = db.standings := by
  rcases syncPlayers_shape src db ids with ⟨v, h⟩; rw [h]

theorem syncPlayers_matches (src db : DB) (ids : List Int) :
    ((syncPlayers src db ids).1).matches' = db.matches' := by
  rcases syncPlayers_shape src db ids with ⟨v, h⟩; rw [h]

theorem syncEvents_standings (db : DB) (evs : List EventRecord) :
    ((syncEvents db evs).1).standings = db.standings := by
  rcases syncEvents_shape db evs with ⟨v, h⟩; rw [h]

theorem syncEvents_matches (db : DB) (evs : List EventRecord) :
    ((syncEvents db evs).1).matches' = db.matches' := by
  rcases syncEvents_shape db evs with ⟨v, h⟩; rw [h]

theorem syncEvents_players (db : DB) (evs : List EventRecord) :
    ((syncEvents db evs).1).players = db.players := by
  rcases syncEvents_shape db evs with ⟨v, h⟩; rw [h]

theorem syncStandings_events (src db : DB) (ids : List Int) :
    ((syncStandings src db ids).1).events = db.events := by
  rcases syncStandings_shape src db ids with ⟨v, h⟩; rw [h]

theorem syncStandings_matches (src db : DB) (ids : List Int) :
    ((syncStandings src db ids).1).matches' = db.matches' := by
  rcases syncStandings_shape src db ids with ⟨v, h⟩; rw [h]

theorem syncMatches_events (src db : DB) (ids : List Int) :
    ((syncMatches src db ids).1).events = db.events := by
  rcases syncMatches_shape src db ids with ⟨v, h⟩; rw [h]

theorem syncMatches_standings (src db : DB) (ids : List Int) :
    ((syncMatches src db ids).1).standings = db.standings := by
  rcases syncMatches_shape src db ids with ⟨v, h⟩; rw [h]

theorem syncDecks_events (src db : DB) (ids : List Int) :
    ((syncDecks src db ids).1).events = db.events := by
  rcases syncDecks_shape src db ids with ⟨v, h⟩; rw [h]

theorem syncDecks_standings (src db : DB) (ids : List Int) :
    ((syncDecks src db ids).1).standings = db.standings := by
  rcases syncDecks_shape src db ids with ⟨v, h⟩; rw [h]

theorem syncDecks_matches (src db : DB) (ids : List Int) :
    ((syncDecks src db ids).1).matches' = db.matches' := by
  rcases syncDecks_shape src db ids with ⟨v, h⟩; rw [h]

theorem syncArchetypes_events (src db : DB) (ids : List Int) :
    ((syncArchetypes src db ids).1).events = db.events := by
  rcases syncArchetypes_shape src db ids with ⟨v, h⟩; rw [h]

theorem syncArchetypes_standings (src db : DB) (ids : List Int) :
    ((syncArchetypes src db ids).1).standings = db.standings := by
  rcases syncArchetypes_shape src db ids with ⟨v, h⟩; rw [h]

theorem syncArchetypes_matches (src db : DB) (ids : List Int) :
    ((syncArchetypes src db ids).1).matches' = db.matches' := by
  rcases syncArchetypes_shape src db ids with ⟨v, h⟩; rw [h]

theorem getUpstreamEvents_mem (src : DB) (excl : List Int) (e : EventRecord)
    (he : e ∈ getUpstreamEvents src excl) :
    e ∈ src.events ∧ e.id ∉ excl := by
  unfold getUpstreamEvents at he
  split at he
  · next hempty =>
    refine ⟨(List.perm_insertionSort eventsBefore _).mem_iff.mp he, ?_⟩
    rw [List.isEmpty_iff.mp hempty]
    exact List.not_mem_nil _
  · have he2 := (List.perm_insertionSort eventsBefore _).mem_iff.mp he
    rcases List.mem_filter.mp he2 with ⟨hmem, hpred⟩
    refine ⟨hmem, ?_⟩
    simpa using hpred

theorem getUpstreamEvents_complete (src : DB) (excl : List Int) (e : EventRecord)
    (he : e ∈ src.events) (hid : e.id ∉ excl) :
    e ∈ getUpstreamEvents src excl := by
  unfold getUpstreamEvents
  split
  · exact (List.perm_insertionSort eventsBefore _).mem_iff.mpr he
  · exact (List.perm_insertionSort eventsBefore _).mem_iff.mpr
      (List.mem_filter.mpr ⟨he, by simpa using hid⟩)

theorem map_eventKey_eq (l : List EventRecord) : l.map eventKey = l.map (·.id) := rfl

/-- After a full run, the pre-existing event rows are preserved
verbatim as a prefix and the appended rows are newly-discovered
upstream events whose ids were absent locally. -/
theorem sync_db_events (src tgt : DB) :
    ∃ suf, ((sync src tgt).db).events = tgt.events ++ suf ∧
      ∀ e ∈ suf, e ∈ src.events ∧ e.id ∉ getLocalEventIds tgt := by
  by_cases hw : (worklist src tgt).isEmpty = true
  · rw [sync_empty_case src tgt hw]
    exact ⟨[], by simp, fun e he => absurd he (List.not_mem_nil e)⟩
  rw [sync_db_stages src tgt hw]
  rw [syncArchetypes_events, syncDecks_events, syncMatches_events, syncStandings_events]
  by_cases hne : (getUpstreamEvents src (getLocalEventIds tgt)).isEmpty = true
  · rw [if_pos hne]
    rw [syncPlayers_events]
    exact ⟨[], by simp, fun e he => absurd he (List.not_mem_nil e)⟩
  · rw [if_neg hne]
    rw [syncEvents_events]
    rw [if_neg hne]
    rw [syncPlayers_events]
    have hfresh : ∀ r ∈ getUpstreamEvents src (getLocalEventIds tgt),
        eventKey r ∉ tgt.events.map eventKey := by
      intro r hr
      rw [map_eventKey_eq]
      exact (getUpstreamEvents_mem src _ r hr).2
    rcases upsertBy_fresh_append eventKey (getUpstreamEvents src (getLocalEventIds tgt))
      tgt.events [] hfresh with ⟨suf, hsuf, hmem⟩
    rw [List.append_nil] at hsuf
    refine ⟨suf, hsuf, ?_⟩
    intro e he
    rcases hmem e he with h1 | h1
    · exact absurd h1 (List.not_mem_nil e)
    · exact getUpstreamEvents_mem src _ e h1

/-- C5: the pipeline runs Players, Events, Standings, Matches, Decks,
Archetypes in exactly that order (each stage's output state feeding the
next); every stage is a zero-count no-op on an empty identifier set
(and an empty worklist short-circuits the whole run); and the Events
stage writes rows only for newly-discovered events — every pre-existing
Event row survives verbatim, the appended rows being upstream events
whose ids were absent locally. -/
theorem sync_pipeline_spec (src db tgt : DB) :
    (syncPlayers src db [] = (db, 0)) ∧
    (syncEvents db [] = (db, 0)) ∧
    (syncStandings src db [] = (db, 0)) ∧
    (syncMatches src db [] = (db, 0)) ∧
    (syncDecks src db [] = (db, 0)) ∧
    (syncArchetypes src db [] = (db, 0)) ∧
    ((worklist src tgt).isEmpty = true → sync src tgt = ⟨tgt, zeroStats, 0, 0⟩) ∧
    (¬(worklist src tgt).isEmpty = true →
      (sync src tgt).db =
        (syncArchetypes src
          (syncDecks src
            (syncMatches src
              (syncStandings src
                ((if (getUpstreamEvents src (getLocalEventIds tgt)).isEmpty then
                    ((syncPlayers src tgt (worklist src tgt)).1, 0)
                  else
                    syncEvents (syncPlayers src tgt (worklist src tgt)).1
                      (getUpstreamEvents src (getLocalEventIds tgt))).1)
                (worklist src tgt)).1
              (worklist src tgt)).1
            (worklist src tgt)).1
          (worklist src tgt)).1) ∧
    (∃ suf, ((sync src tgt).db).events = tgt.events ++ suf ∧
      ∀ e ∈ suf, e ∈ src.events ∧ e.id ∉ getLocalEventIds tgt) :=
  ⟨rfl, rfl, rfl, rfl, rfl, rfl,
   fun h => sync_empty_case src tgt h,
   fun h => sync_db_stages src tgt h,
   sync_db_events src tgt⟩

/-- Witness for `sync_pipeline_spec`: a new upstream event is appended
after the pre-existing event row, which survives verbatim. -/
theorem sync_pipeline_spec_witness :
    (syncStandings
      ⟨[], [], [], [], [], []⟩ ⟨[], [], [], [], [], []⟩ [] = (⟨[], [], [], [], [], []⟩, 0)) ∧
    ∃ suf, ((sync
      ⟨[⟨101, "New", 2, "Modern", "League", none, some 0⟩], [], [], [], [], []⟩
      ⟨[⟨100, "Old", 1, "Modern", "League", none, some 0⟩], [], [], [], [], []⟩).db).events =
      [⟨100, "Old", 1, "Modern", "League", none, some 0⟩] ++ suf := by
  refine ⟨(sync_pipeline_spec ⟨[], [], [], [], [], []⟩ ⟨[], [], [], [], [], []⟩
    ⟨[], [], [], [], [], []⟩).2.2.1, ?_⟩
  rcases (sync_pipeline_spec
    ⟨[⟨101, "New", 2, "Modern", "League", none, some 0⟩], [], [], [], [], []⟩
    ⟨[], [], [], [], [], []⟩
    ⟨[⟨100, "Old", 1, "Modern", "League", none, some 0⟩], [], [], [], [], []⟩).2.2.2.2.2.2.2.2 with ⟨suf, hs, _⟩
  exact ⟨suf, hs⟩

theorem deckRefOk_congr (db db' : DB) (hp : db'.players = db.players)
    (he : db'.events = db.events) (d : Deck) : deckRefOk db' d = deckRefOk db d := by
  unfold deckRefOk
  rw [hp, he]

theorem matchRefOk_congr (db db' : DB) (hp : db'.players = db.players)
    (he : db'.events = db.events) (m : MatchRow) : matchRefOk db' m = matchRefOk db m := by
  unfold matchRefOk
  rw [hp, he]

theorem standingRefOk_congr (db db' : DB) (hp : db'.players = db.players)
    (he : db'.events = db.events) (s : Standing) :
    standingRefOk db' s = standingRefOk db s := by
  unfold standingRefOk
  rw [hp, he]

/-- Behaviour of the merge utility's per-deck loop: only the deck table
changes, every appended row comes from the input and passed the
referential check, the success and skip counters partition the input,
and every referentially-valid input row ends up present (by id) even
when other rows are skipped. -/
theorem mergeDecksLoop_spec :
    ∀ (rows : List Deck) (db : DB) (n k : Nat),
      ((mergeDecksLoop db n k rows).1.players = db.players ∧
       (mergeDecksLoop db n k rows).1.events = db.events ∧
       (mergeDecksLoop db n k rows).1.standings = db.standings ∧
       (mergeDecksLoop db n k rows).1.matches' = db.matches' ∧
       (mergeDecksLoop db n k rows).1.archetypes = db.archetypes) ∧
      (∃ suf, (mergeDecksLoop db n k rows).1.decks = db.decks ++ suf ∧
        ∀ d ∈ suf, d ∈ rows ∧ deckRefOk db d = true) ∧
      ((mergeDecksLoop db n k rows).2.1 + (mergeDecksLoop db n k rows).2.2 =
        n + k + rows.length) ∧
      (∀ d ∈ rows, deckRefOk db d = true →
        d.id ∈ ((mergeDecksLoop db n k rows).1.decks).map (·.id)) := by
  intro rows
  induction rows with
  | nil =>
    intro db n k
    refine ⟨⟨rfl, rfl, rfl, rfl, rfl⟩, ⟨[], by simp [mergeDecksLoop], ?_⟩, by simp [mergeDecksLoop], ?_⟩
    · intro d hd; cases hd
    · intro d hd; cases hd
  | cons d rest ih =>
    intro db n k
    show _ ∧ _ ∧ _ ∧ _
    by_cases hc : db.decks.any (fun x => decide (x.id = d.id)) = true
    · have hstep : mergeDecksLoop db n k (d :: rest) = mergeDecksLoop db (n + 1) k rest := by
        simp only [mergeDecksLoop]
        rw [if_pos hc]
      rw [hstep]
      rcases ih db (n + 1) k with ⟨hframe, ⟨suf, hsuf, hprop⟩, hcount, hcont⟩
      refine ⟨hframe, ⟨suf, hsuf, fun x hx =>
        ⟨List.mem_cons_of_mem _ (hprop x hx).1, (hprop x hx).2⟩⟩,
        by simp only [List.length_cons]; omega, ?_⟩
      intro x hx hok
      rcases List.mem_cons.mp hx with h1 | h1
      · subst h1
        rw [hsuf]
        rcases List.any_eq_true.mp hc with ⟨y, hy, hye⟩
        rw [List.map_append]
        exact List.mem_append_left _
          (of_decide_eq_true hye ▸ List.mem_map_of_mem _ hy)
      · exact hcont x h1 hok
    · by_cases hr : deckRefOk db d = true
      · have hstep : mergeDecksLoop db n k (d :: rest) =
            mergeDecksLoop { db with decks := db.decks ++ [d] } (n + 1) k rest := by
          simp only [mergeDecksLoop]
          rw [if_neg hc, if_pos hr]
        rw [hstep]
        rcases ih { db with decks := db.decks ++ [d] } (n + 1) k with
          ⟨hframe, ⟨suf, hsuf, hprop⟩, hcount, hcont⟩
        have hrfl : ∀ x, deckRefOk { db with decks := db.decks ++ [d] } x = deckRefOk db x :=
          fun x => deckRefOk_congr db _ rfl rfl x
        refine ⟨hframe, ⟨d :: suf, ?_, ?_⟩, by simp only [List.length_cons]; omega, ?_⟩
        · rw [hsuf]
          simp
        · intro x hx
          rcases List.mem_cons.mp hx with h1 | h1
          · subst h1
            exact ⟨List.mem_cons_self .., hr⟩
          · exact ⟨List.mem_cons_of_mem _ (hprop x h1).1, (hrfl x) ▸ (hprop x h1).2⟩
        · intro x hx hok
          rcases List.mem_cons.mp hx with h1 | h1
          · subst h1
            rw [hsuf, List.map_append]
            exact List.mem_append_left _ (by simp)
          · exact hcont x h1 ((hrfl x).trans (hok))
      · have hstep : mergeDecksLoop db n k (d :: rest) = mergeDecksLoop db n (k + 1) rest := by
          simp only [mergeDecksLoop]
          rw [if_neg hc, if_neg hr]
        rw [hstep]
        rcases ih db n (k + 1) with ⟨hframe, ⟨suf, hsuf, hprop⟩, hcount, hcont⟩
        refine ⟨hframe, ⟨suf, hsuf, fun x hx =>
          ⟨List.mem_cons_of_mem _ (hprop x hx).1, (hprop x hx).2⟩⟩,
          by simp only [List.length_cons]; omega, ?_⟩
        intro x hx hok
        rcases List.mem_cons.mp hx with h1 | h1
        · subst h1
          exact absurd hok hr
        · exact hcont x h1 hok

/-- Behaviour of the merge utility's per-match loop: as for decks, with
conflicts detected on `(event_id, round, player)`. -/
theorem mergeMatchesLoop_spec :
    ∀ (rows : List MatchRow) (db : DB) (n k : Nat),
      ((mergeMatchesLoop db n k rows).1.players = db.players ∧
       (mergeMatchesLoop db n k rows).1.events = db.events ∧
       (mergeMatchesLoop db n k rows).1.standings = db.standings ∧
       (mergeMatchesLoop db n k rows).1.decks = db.decks ∧
       (mergeMatchesLoop db n k rows).1.archetypes = db.archetypes) ∧
      (∃ suf, (mergeMatchesLoop db n k rows).1.matches' = db.matches' ++ suf ∧
        ∀ m ∈ suf, m ∈ rows ∧ matchRefOk db m = true) ∧
      ((mergeMatchesLoop db n k rows).2.1 + (mergeMatchesLoop db n k rows).2.2 =
        n + k + rows.length) ∧
      (∀ m ∈ rows, matchRefOk db m = true →
        matchKey m ∈ ((mergeMatchesLoop db n k rows).1.matches').map matchKey) := by
  intro rows
  induction rows with
  | nil =>
    intro db n k
    refine ⟨⟨rfl, rfl, rfl, rfl, rfl⟩, ⟨[], by simp [mergeMatchesLoop], ?_⟩,
      by simp [mergeMatchesLoop], ?_⟩
    · intro m hm; cases hm
    · intro m hm; cases hm
  | cons m rest ih =>
    intro db n k
    by_cases hc : db.matches'.any (fun x => decide (matchKey x = matchKey m)) = true
    · have hstep : mergeMatchesLoop db n k (m :: rest) = mergeMatchesLoop db (n + 1) k rest := by
        simp only [mergeMatchesLoop]
        rw [if_pos hc]
      rw [hstep]
      rcases ih db (n + 1) k with ⟨hframe, ⟨suf, hsuf, hprop⟩, hcount, hcont⟩
      refine ⟨hframe, ⟨suf, hsuf, fun x hx =>
        ⟨List.mem_cons_of_mem _ (hprop x hx).1, (hprop x hx).2⟩⟩,
        by simp only [List.length_cons]; omega, ?_⟩
      intro x hx hok
      rcases List.mem_cons.mp hx with h1 | h1
      · subst h1
        rw [hsuf]
        rcases List.any_eq_true.mp hc with ⟨y, hy, hye⟩
        rw [List.map_append]
        exact List.mem_append_left _
          (of_decide_eq_true hye ▸ List.mem_map_of_mem _ hy)
      · exact hcont x h1 hok
    · by_cases hr : matchRefOk db m = true
      · have hstep : mergeMatchesLoop db n k (m :: rest) =
            mergeMatchesLoop { db with matches' := db.matches' ++ [m] } (n + 1) k rest := by
          simp only [mergeMatchesLoop]
          rw [if_neg hc, if_pos hr]
        rw [hstep]
        rcases ih { db with matches' := db.matches' ++ [m] } (n + 1) k with
          ⟨hframe, ⟨suf, hsuf, hprop⟩, hcount, hcont⟩
        have hrfl : ∀ x, matchRefOk { db with matches' := db.matches' ++ [m] } x =
            matchRefOk db x :=
          fun x => matchRefOk_congr db _ rfl rfl x
        refine ⟨hframe, ⟨m :: suf, ?_, ?_⟩,
          by simp only [List.length_cons]; omega, ?_⟩
        · rw [hsuf]
          simp
        · intro x hx
          rcases List.mem_cons.mp hx with h1 | h1
          · subst h1
            exact ⟨List.mem_cons_self .., hr⟩
          · exact ⟨List.mem_cons_of_mem _ (hprop x h1).1, (hrfl x) ▸ (hprop x h1).2⟩
        · intro x hx hok
          rcases List.mem_cons.mp hx with h1 | h1
          · subst h1
            rw [hsuf, List.map_append]
            exact List.mem_append_left _ (by simp)
          · exact hcont x h1 ((hrfl x).trans (hok))
      · have hstep : mergeMatchesLoop db n k (m :: rest) = mergeMatchesLoop db n (k + 1) rest := by
          simp only [mergeMatchesLoop]
          rw [if_neg hc, if_neg hr]
        rw [hstep]
        rcases ih db n (k + 1) with ⟨hframe, ⟨suf, hsuf, hprop⟩, hcount, hcont⟩
        refine ⟨hframe, ⟨suf, hsuf, fun x hx =>
          ⟨List.mem_cons_of_mem _ (hprop x hx).1, (hprop x hx).2⟩⟩,
          by simp only [List.length_cons]; omega, ?_⟩
        intro x hx hok
        rcases List.mem_cons.mp hx with h1 | h1
        · subst h1
          exact absurd hok hr
        · exact hcont x h1 hok

/-- Behaviour of the merge utility's per-standing loop: as for decks,
with conflicts detected on `(event_id, player)`. -/
theorem mergeStandingsLoop_spec :
    ∀ (rows : List Standing) (db : DB) (n k : Nat),
      ((mergeStandingsLoop db n k rows).1.players = db.players ∧
       (mergeStandingsLoop db n k rows).1.events = db.events ∧
       (mergeStandingsLoop db n k rows).1.matches' = db.matches' ∧
       (mergeStandingsLoop db n k rows).1.decks = db.decks ∧
       (mergeStandingsLoop db n k rows).1.archetypes = db.archetypes) ∧
      (∃ suf, (mergeStandingsLoop db n k rows).1.standings = db.standings ++ suf ∧
        ∀ s ∈ suf, s ∈ rows ∧ standingRefOk db s = true) ∧
      ((mergeStandingsLoop db n k rows).2.1 + (mergeStandingsLoop db n k rows).2.2 =
        n + k + rows.length) ∧
      (∀ s ∈ rows, standingRefOk db s = true →
        standingKey s ∈ ((mergeStandingsLoop db n k rows).1.standings).map standingKey) := by
  intro rows
  induction rows with
  | nil =>
    intro db n k
    refine ⟨⟨rfl, rfl, rfl, rfl, rfl⟩, ⟨[], by simp [mergeStandingsLoop], ?_⟩,
      by simp [mergeStandingsLoop], ?_⟩
    · intro s hs; cases hs
    · intro s hs; cases hs
  | cons s rest ih =>
    intro db n k
    by_cases hc : db.standings.any (fun x => decide (standingKey x = standingKey s)) = true
    · have hstep : mergeStandingsLoop db n k (s :: rest) =
          mergeStandingsLoop db (n + 1) k rest := by
        simp only [mergeStandingsLoop]
        rw [if_pos hc]
      rw [hstep]
      rcases ih db (n + 1) k with ⟨hframe, ⟨suf, hsuf, hprop⟩, hcount, hcont⟩
      refine ⟨hframe, ⟨suf, hsuf, fun x hx =>
        ⟨List.mem_cons_of_mem _ (hprop x hx).1, (hprop x hx).2⟩⟩,
        by simp only [List.length_cons]; omega, ?_⟩
      intro x hx hok
      rcases List.mem_cons.mp hx with h1 | h1
      · subst h1
        rw [hsuf]
        rcases List.any_eq_true.mp hc with ⟨y, hy, hye⟩
        rw [List.map_append]
        exact List.mem_append_left _
          (of_decide_eq_true hye ▸ List.mem_map_of_mem _ hy)
      · exact hcont x h1 hok
    · by_cases hr : standingRefOk db s = true
      · have hstep : mergeStandingsLoop db n k (s :: rest) =
            mergeStandingsLoop { db with standings := db.standings ++ [s] } (n + 1) k rest := by
          simp only [mergeStandingsLoop]
          rw [if_neg hc, if_pos hr]
        rw [hstep]
        rcases ih { db with standings := db.standings ++ [s] } (n + 1) k with
          ⟨hframe, ⟨suf, hsuf, hprop⟩, hcount, hcont⟩
        have hrfl : ∀ x, standingRefOk { db with standings := db.standings ++ [s] } x =
            standingRefOk db x :=
          fun x => standingRefOk_congr db _ rfl rfl x
        refine ⟨hframe, ⟨s :: suf, ?_, ?_⟩,
          by simp only [List.length_cons]; omega, ?_⟩
        · rw [hsuf]
          simp
        · intro x hx
          rcases List.mem_cons.mp hx with h1 | h1
          · subst h1
            exact ⟨List.mem_cons_self .., hr⟩
          · exact ⟨List.mem_cons_of_mem _ (hprop x h1).1, (hrfl x) ▸ (hprop x h1).2⟩
        · intro x hx hok
          rcases List.mem_cons.mp hx with h1 | h1
          · subst h1
            rw [hsuf, List.map_append]
            exact List.mem_append_left _ (by simp)
          · exact hcont x h1 ((hrfl x).trans (hok))
      · have hstep : mergeStandingsLoop db n k (s :: rest) =
            mergeStandingsLoop db n (k + 1) rest := by
          simp only [mergeStandingsLoop]
          rw [if_neg hc, if_neg hr]
        rw [hstep]
        rcases ih db n (k + 1) with ⟨hframe, ⟨suf, hsuf, hprop⟩, hcount, hcont⟩
        refine ⟨hframe, ⟨suf, hsuf, fun x hx =>
          ⟨List.mem_cons_of_mem _ (hprop x hx).1, (hprop x hx).2⟩⟩,
          by simp only [List.length_cons]; omega, ?_⟩
        intro x hx hok
        rcases List.mem_cons.mp hx with h1 | h1
        · subst h1
          exact absurd hok hr
        · exact hcont x h1 hok

/-- The C8 claim, literally: every row each dependent-category
selection pulls from the snapshot references a player and an event that
already exist on the target. -/
def c8ClaimHolds (snap tgt : DB) : Prop :=
  (∀ d ∈ mergeSelectDecks snap tgt,
    (∃ p ∈ tgt.players, p.name = d.player) ∧ (∃ e ∈ tgt.events, e.id = d.event_id)) ∧
  (∀ m ∈ mergeSelectMatches snap tgt,
    (∃ p ∈ tgt.players, p.name = m.player) ∧ (∃ e ∈ tgt.events, e.id = m.event_id)) ∧
  (∀ s ∈ mergeSelectStandings snap tgt,
    (∃ p ∈ tgt.players, p.name = s.player) ∧ (∃ e ∈ tgt.events, e.id = s.event_id))

instance (snap tgt : DB) : Decidable (c8ClaimHolds snap tgt) := by
  unfold c8ClaimHolds; exact inferInstance

/-- Counterexample to C8 as stated: the deck selection filters on the
referenced player only, so a snapshot deck whose player exists on the
target but whose event does not is still selected. -/
theorem c8Claim_counterexample :
    ¬ c8ClaimHolds
      ⟨[], [], [], [], [⟨1, 999, "Alice", "[]", "[]"⟩], []⟩
      ⟨[], [⟨7, "Alice"⟩], [], [], [], []⟩ := by
  decide

/-- C8 (amended): the match and standing selections only pull snapshot
rows whose referenced player and event already exist on the target;
the deck selection only checks the referenced player, and a selected
deck whose event reference is invalid is skipped at insert time by the
per-record constraint handler rather than failing the run — every deck
row the loop actually writes passes both referential checks. -/
theorem mergeSelections_reference_filter (snap tgt : DB) :
    (∀ m ∈ mergeSelectMatches snap tgt,
      (∃ p ∈ tgt.players, p.name = m.player) ∧ (∃ e ∈ tgt.events, e.id = m.event_id)) ∧
    (∀ s ∈ mergeSelectStandings snap tgt,
      (∃ p ∈ tgt.players, p.name = s.player) ∧ (∃ e ∈ tgt.events, e.id = s.event_id)) ∧
    (∀ d ∈ mergeSelectDecks snap tgt, ∃ p ∈ tgt.players, p.name = d.player) ∧
    (∃ suf, ((mergeDecksLoop tgt 0 0 (mergeSelectDecks snap tgt)).1).decks =
        tgt.decks ++ suf ∧
      ∀ d ∈ suf, (∃ p ∈ tgt.players, p.name = d.player) ∧
        (∃ e ∈ tgt.events, e.id = d.event_id)) := by
  refine ⟨?_, ?_, ?_, ?_⟩
  · intro m hm
    rcases List.mem_filter.mp hm with ⟨_, hpred⟩
    simp only [Bool.and_eq_true, decide_eq_true_eq] at hpred
    rcases hpred with ⟨⟨_, hp⟩, he⟩
    constructor
    · rcases List.mem_map.mp hp with ⟨p, hpm, hpe⟩
      exact ⟨p, hpm, hpe⟩
    · rcases List.mem_map.mp he with ⟨e, hem, hee⟩
      exact ⟨e, hem, hee⟩
  · intro s hs
    rcases List.mem_filter.mp hs with ⟨_, hpred⟩
    simp only [Bool.and_eq_true, decide_eq_true_eq] at hpred
    rcases hpred with ⟨⟨_, hp⟩, he⟩
    constructor
    · rcases List.mem_map.mp hp with ⟨p, hpm, hpe⟩
      exact ⟨p, hpm, hpe⟩
    · rcases List.mem_map.mp he with ⟨e, hem, hee⟩
      exact ⟨e, hem, hee⟩
  · intro d hd
    rcases List.mem_filter.mp hd with ⟨_, hpred⟩
    simp only [Bool.and_eq_true, decide_eq_true_eq] at hpred
    rcases List.mem_map.mp hpred.2 with ⟨p, hpm, hpe⟩
    exact ⟨p, hpm, hpe⟩
  · rcases (mergeDecksLoop_spec (mergeSelectDecks snap tgt) tgt 0 0).2.1 with
      ⟨suf, hsuf, hprop⟩
    refine ⟨suf, hsuf, ?_⟩
    intro d hd
    have hok := (hprop d hd).2
    unfold deckRefOk at hok
    simp only [Bool.and_eq_true, List.any_eq_true, decide_eq_true_eq] at hok
    exact ⟨hok.1, hok.2⟩

/-- Witness for `mergeSelections_reference_filter`: a snapshot match
whose player and event both exist on the target is selected, and its
referenced entities are found. -/
theorem mergeSelections_reference_filter_witness :
    (∃ p ∈ ([⟨7, "Alice"⟩] : List Player), p.name = "Alice") ∧
    (∃ e ∈ ([⟨100, "E", 1, "Modern", "League", none, some 2⟩] : List EventRecord),
      e.id = (100 : Int)) := by
  have h := (mergeSelections_reference_filter
    ⟨[], [], [], [⟨1, 100, 1, "Alice", "B", "1-0", "win", false, ""⟩], [], []⟩
    ⟨[⟨100, "E", 1, "Modern", "League", none, some 2⟩], [⟨7, "Alice"⟩], [], [], [], []⟩).1
  exact h ⟨1, 100, 1, "Alice", "B", "1-0", "win", false, ""⟩ (by decide)

/-- C9: during the merge utility's dependent-row writes, a record whose
referenced parent is absent is skipped (never written), the number of
such skips is exactly the shortfall between the input size and the
success counter, and the loop continues: every later referentially
valid record is still written (or already present under its key). -/
theorem merge_per_record_recovery (tgt : DB) :
    (∀ rows : List Deck,
      (∃ suf, ((mergeDecksLoop tgt 0 0 rows).1).decks = tgt.decks ++ suf ∧
        ∀ d ∈ suf, d ∈ rows ∧ deckRefOk tgt d = true) ∧
      ((mergeDecksLoop tgt 0 0 rows).2.1 + (mergeDecksLoop tgt 0 0 rows).2.2 =
        rows.length) ∧
      (∀ d ∈ rows, deckRefOk tgt d = true →
        d.id ∈ (((mergeDecksLoop tgt 0 0 rows).1).decks).map (·.id))) ∧
    (∀ rows : List MatchRow,
      (∃ suf, ((mergeMatchesLoop tgt 0 0 rows).1).matches' = tgt.matches' ++ suf ∧
        ∀ m ∈ suf, m ∈ rows ∧ matchRefOk tgt m = true) ∧
      ((mergeMatchesLoop tgt 0 0 rows).2.1 + (mergeMatchesLoop tgt 0 0 rows).2.2 =
        rows.length) ∧
      (∀ m ∈ rows, matchRefOk tgt m = true →
        matchKey m ∈ (((mergeMatchesLoop tgt 0 0 rows).1).matches').map matchKey)) ∧
    (∀ rows : List Standing,
      (∃ suf, ((mergeStandingsLoop tgt 0 0 rows).1).standings = tgt.standings ++ suf ∧
        ∀ s ∈ suf, s ∈ rows ∧ standingRefOk tgt s = true) ∧
      ((mergeStandingsLoop tgt 0 0 rows).2.1 + (mergeStandingsLoop tgt 0 0 rows).2.2 =
        rows.length) ∧
      (∀ s ∈ rows, standingRefOk tgt s = true →
        standingKey s ∈ (((mergeStandingsLoop tgt 0 0 rows).1).standings).map standingKey)) := by
  refine ⟨?_, ?_, ?_⟩
  · intro rows
    rcases mergeDecksLoop_spec rows tgt 0 0 with ⟨_, hsuf, hcount, hcont⟩
    exact ⟨hsuf, by omega, hcont⟩
  · intro rows
    rcases mergeMatchesLoop_spec rows tgt 0 0 with ⟨_, hsuf, hcount, hcont⟩
    exact ⟨hsuf, by omega, hcont⟩
  · intro rows
    rcases mergeStandingsLoop_spec rows tgt 0 0 with ⟨_, hsuf, hcount, hcont⟩
    exact ⟨hsuf, by omega, hcont⟩

/-- Witness for `merge_per_record_recovery`: with a middle record
referencing a missing event, the loop writes rows 1 and 3, counts one
skip, and the valid rows are present afterwards. -/
theorem merge_per_record_recovery_witness :
    (mergeDecksLoop
      ⟨[⟨100, "E", 1, "Modern", "League", none, some 2⟩], [⟨7, "Alice"⟩], [], [], [], []⟩
      0 0
      [⟨1, 100, "Alice", "[]", "[]"⟩, ⟨2, 999, "Alice", "[]", "[]"⟩,
       ⟨3, 100, "Alice", "[]", "[]"⟩]).2.1 = 2 ∧
    (mergeDecksLoop
      ⟨[⟨100, "E", 1, "Modern", "League", none, some 2⟩], [⟨7, "Alice"⟩], [], [], [], []⟩
      0 0
      [⟨1, 100, "Alice", "[]", "[]"⟩, ⟨2, 999, "Alice", "[]", "[]"⟩,
       ⟨3, 100, "Alice", "[]", "[]"⟩]).2.2 = 1 ∧
    (3 : Int) ∈ (((mergeDecksLoop
      ⟨[⟨100, "E", 1, "Modern", "League", none, some 2⟩], [⟨7, "Alice"⟩], [], [], [], []⟩
      0 0
      [⟨1, 100, "Alice", "[]", "[]"⟩, ⟨2, 999, "Alice", "[]", "[]"⟩,
       ⟨3, 100, "Alice", "[]", "[]"⟩]).1).decks).map (·.id) := by
  refine ⟨by decide, by decide, ?_⟩
  exact ((merge_per_record_recovery
    ⟨[⟨100, "E", 1, "Modern", "League", none, some 2⟩], [⟨7, "Alice"⟩], [], [], [], []⟩).1
    [⟨1, 100, "Alice", "[]", "[]"⟩, ⟨2, 999, "Alice", "[]", "[]"⟩,
     ⟨3, 100, "Alice", "[]", "[]"⟩]).2.2
    ⟨3, 100, "Alice", "[]", "[]"⟩ (by decide) (by decide)

theorem playersToSync_names_eq (src tgt : DB) (ids : List Int) :
    (playersToSync src tgt ids).map (·.name) =
      (referencedPlayerNames src ids).filter
        (fun n => !(decide (n ∈ tgt.players.map (·.name)))) :=
  assignPlayers_names ..

theorem playersToSync_names_nodup (src tgt : DB) (ids : List Int) :
    ((playersToSync src tgt ids).map (·.name)).Nodup := by
  rw [playersToSync_names_eq]
  exact (List.nodup_dedup _).filter _

theorem playersToSync_fresh (src tgt : DB) (ids : List Int) :
    ∀ p ∈ playersToSync src tgt ids, ∀ q ∈ tgt.players, q.name ≠ p.name := by
  intro p hp q hq he
  have hn : p.name ∈ (playersToSync src tgt ids).map (·.name) :=
    List.mem_map_of_mem _ hp
  rw [playersToSync_names_eq] at hn
  rcases List.mem_filter.mp hn with ⟨_, hpred⟩
  simp only [Bool.not_eq_true', decide_eq_false_iff_not] at hpred
  exact hpred (he ▸ List.mem_map_of_mem (fun x => x.name) hq)

theorem playersToSync_nil_of_ids_empty (src tgt : DB) (ids : List Int)
    (h : ids.isEmpty = true) : playersToSync src tgt ids = [] := by
  rw [List.isEmpty_iff.mp h]
  have hnames : referencedPlayerNames src [] = [] := by
    unfold referencedPlayerNames
    have h1 : (src.standings.filter (fun s => decide (s.event_id ∈ ([] : List Int)))) = [] :=
      List.filter_eq_nil_iff.mpr (fun a _ => by simp)
    have h2 : (src.matches'.filter (fun m => decide (m.event_id ∈ ([] : List Int)))) = [] :=
      List.filter_eq_nil_iff.mpr (fun a _ => by simp)
    have h3 : (src.decks.filter (fun d => decide (d.event_id ∈ ([] : List Int)))) = [] :=
      List.filter_eq_nil_iff.mpr (fun a _ => by simp)
    rw [h1, h2, h3]
    rfl
  unfold playersToSync
  rw [hnames]
  rfl

theorem playersToSync_nil_of_names_empty (src tgt : DB) (ids : List Int)
    (h : (referencedPlayerNames src ids).isEmpty = true) :
    playersToSync src tgt ids = [] := by
  unfold playersToSync
  rw [List.isEmpty_iff.mp h]
  rfl

/-- The Players stage always appends exactly the computed
`playersToSync` rows (all names are new and pairwise distinct). -/
theorem syncPlayers_players_append (src tgt : DB) (ids : List Int) :
    ((syncPlayers src tgt ids).1).players = tgt.players ++ playersToSync src tgt ids := by
  rw [syncPlayers_players]
  by_cases h1 : ids.isEmpty = true
  · rw [if_pos h1, playersToSync_nil_of_ids_empty src tgt ids h1, List.append_nil]
  rw [if_neg h1]
  by_cases h2 : (referencedPlayerNames src ids).isEmpty = true
  · rw [if_pos h2, playersToSync_nil_of_names_empty src tgt ids h2, List.append_nil]
  rw [if_neg h2]
  exact insertPlayersDoNothing_fresh (playersToSync src tgt ids) tgt.players
    (playersToSync_names_nodup src tgt ids) (playersToSync_fresh src tgt ids)

/-- The rows of a run that went through the synthesis branch. -/
def synthEntries (src tgt : DB) (ids : List Int) : List Player :=
  (playersToSync src tgt ids).filter
    (fun p => synthAssigned (upsSel src ids) (tgt.players.map (·.id)) p.name)

theorem lookupName_mem (ups : List Player) (n : String) (i : Int)
    (h : lookupName ups n = some i) : ∃ p ∈ ups, p.name = n ∧ p.id = i := by
  unfold lookupName at h
  cases hf : ups.reverse.find? (fun p => decide (p.name = n)) with
  | none => rw [hf] at h; cases h
  | some a =>
    rw [hf] at h
    simp only [Option.map_some'] at h
    refine ⟨a, List.mem_reverse.mp (List.mem_of_find?_eq_some hf), ?_, by
      injection h⟩
    have := List.find?_some hf
    exact of_decide_eq_true this

theorem synthEntries_le_floor (src tgt : DB) (ids : List Int) :
    ∀ p ∈ synthEntries src tgt ids, p.id ≤ localFloor tgt - 1 := by
  intro p hp
  rcases assignPlayers_synth_run (upsSel src ids) (tgt.players.map (·.name))
    (tgt.players.map (·.id)) (referencedPlayerNames src ids) (localFloor tgt - 1)
    with ⟨m, hm⟩
  have hid : p.id ∈ (synthEntries src tgt ids).map (·.id) := List.mem_map_of_mem _ hp
  unfold synthEntries playersToSync at hid
  rw [hm] at hid
  rcases List.mem_map.mp hid with ⟨j, _, hje⟩
  omega

theorem synthEntries_ids_nodup (src tgt : DB) (ids : List Int) :
    ((synthEntries src tgt ids).map (·.id)).Nodup := by
  rcases assignPlayers_synth_run (upsSel src ids) (tgt.players.map (·.name))
    (tgt.players.map (·.id)) (referencedPlayerNames src ids) (localFloor tgt - 1)
    with ⟨m, hm⟩
  unfold synthEntries playersToSync
  rw [hm]
  apply List.Nodup.map
  · intro a b hab
    dsimp only at hab
    omega
  · exact List.nodup_range _

theorem playersToSync_adopted_pos (src tgt : DB) (ids : List Int)
    (hpos : ∀ p ∈ src.players, 0 < p.id) :
    ∀ p ∈ playersToSync src tgt ids,
      synthAssigned (upsSel src ids) (tgt.players.map (·.id)) p.name = false →
      0 < p.id := by
  intro p hp hs
  have h := assignPlayers_adopted (upsSel src ids) (tgt.players.map (·.name))
    (tgt.players.map (·.id)) (referencedPlayerNames src ids) (localFloor tgt - 1) p hp hs
  rcases lookupName_mem _ _ _ h.1 with ⟨q, hq, _, hqi⟩
  have hqm : q ∈ src.players := (List.mem_filter.mp hq).1
  exact hqi ▸ hpos q hqm

theorem syncStandings_players (src db : DB) (ids : List Int) :
    ((syncStandings src db ids).1).players = db.players := by
  rcases syncStandings_shape src db ids with ⟨v, h⟩; rw [h]

theorem syncMatches_players (src db : DB) (ids : List Int) :
    ((syncMatches src db ids).1).players = db.players := by
  rcases syncMatches_shape src db ids with ⟨v, h⟩; rw [h]

theorem syncDecks_players (src db : DB) (ids : List Int) :
    ((syncDecks src db ids).1).players = db.players := by
  rcases syncDecks_shape src db ids with ⟨v, h⟩; rw [h]

theorem syncArchetypes_players (src db : DB) (ids : List Int) :
    ((syncArchetypes src db ids).1).players = db.players := by
  rcases syncArchetypes_shape src db ids with ⟨v, h⟩; rw [h]

/-- Modelled from the spec: the target schema declares `players.id` as
a unique key (the merge utility's `ON CONFLICT (id) DO NOTHING` on
`players` presupposes a unique index on `id`; the schema DDL itself is
outside `src`). The reconciler's single
`INSERT INTO players .. ON CONFLICT (name) DO NOTHING` statement
therefore succeeds iff no inserted row's id duplicates another inserted
row's id or an id already stored: `ON CONFLICT (name)` does not
arbitrate an id conflict, so such a row raises a unique violation
instead of being skipped. (At the only call site every row's name is
fresh and the names are pairwise distinct, so every row is actually
inserted.) -/
def playersInsertOk (tbl ps : List Player) : Bool :=
  decide ((ps.map (·.id)).Nodup) &&
    ps.all (fun p => decide (p.id ∉ tbl.map (·.id)))

theorem playersInsertOk_nil (tbl : List Player) : playersInsertOk tbl [] = true := rfl

/-- Stage 1 with its failure path: `none` models the players INSERT
raising a unique-id violation. The statement is atomic, so on failure
nothing is written and the run stops before any later stage. -/
def syncPlayersChecked (src tgt : DB) (eventIds : List Int) : Option (DB × Nat) :=
  if eventIds.isEmpty then some (tgt, 0)
  else if (referencedPlayerNames src eventIds).isEmpty then some (tgt, 0)
  else
    let ps := playersToSync src tgt eventIds
    if playersInsertOk tgt.players ps then
      some ({ tgt with players := insertPlayersDoNothing tgt.players ps }, ps.length)
    else none

/-- One full `sync()` run with the players-stage failure path: `none`
means the uncaught insert error aborted the run, and — the failing
INSERT being the run's first write — the target is left unchanged. -/
def syncChecked (src tgt : DB) : Option SyncResult :=
  if (worklist src tgt).isEmpty then some ⟨tgt, zeroStats, 0, 0⟩
  else
    (syncPlayersChecked src tgt (worklist src tgt)).map (fun r1 =>
      let newEvents := getUpstreamEvents src (getLocalEventIds tgt)
      let r2 := if newEvents.isEmpty then (r1.1, 0) else syncEvents r1.1 newEvents
      let r3 := syncStandings src r2.1 (worklist src tgt)
      let r4 := syncMatches src r3.1 (worklist src tgt)
      let r5 := syncDecks src r4.1 (worklist src tgt)
      let r6 := syncArchetypes src r5.1 (worklist src tgt)
      ⟨r6.1, ⟨r2.2, r1.2, r4.2, r5.2, r3.2, r6.2⟩, newEvents.length,
        (getIncompleteEventIds tgt).length⟩)

/-- The target after one run with the abort path: an aborted run leaves
the target unchanged. -/
def runTargetChecked (src tgt : DB) : DB :=
  match syncChecked src tgt with
  | some r => r.db
  | none => tgt

/-- The synthesized rows a run persists: none when the run aborted (the
atomic INSERT wrote nothing). -/
def runEntriesChecked (src tgt : DB) : List Player :=
  match syncChecked src tgt with
  | some _ => synthEntries src tgt (worklist src tgt)
  | none => []

/-- The evolving target across a sequence of full runs, each given by
its source database (the worklist is computed, as in `sync`). -/
def runSeqChecked (tgt : DB) : List DB → DB
  | [] => tgt
  | src :: rest => runSeqChecked (runTargetChecked src tgt) rest

/-- All identifiers synthesized and persisted across a sequence of
runs, with the names they were issued for. -/
def allSynthChecked (tgt : DB) : List DB → List Player
  | [] => []
  | src :: rest => runEntriesChecked src tgt ++ allSynthChecked (runTargetChecked src tgt) rest

theorem syncPlayersChecked_some (src tgt : DB) (ids : List Int) (d : DB × Nat)
    (h : syncPlayersChecked src tgt ids = some d) : d = syncPlayers src tgt ids := by
  unfold syncPlayersChecked at h
  unfold syncPlayers
  by_cases h1 : ids.isEmpty = true
  · rw [if_pos h1] at h
    rw [if_pos h1]
    exact (Option.some_inj.mp h).symm
  rw [if_neg h1] at h
  rw [if_neg h1]
  by_cases h2 : (referencedPlayerNames src ids).isEmpty = true
  · rw [if_pos h2] at h
    rw [if_pos h2]
    exact (Option.some_inj.mp h).symm
  rw [if_neg h2] at h
  rw [if_neg h2]
  dsimp only at h ⊢
  by_cases h3 : playersInsertOk tgt.players (playersToSync src tgt ids) = true
  · rw [if_pos h3] at h
    exact (Option.some_inj.mp h).symm
  · rw [if_neg h3] at h
    cases h

theorem syncPlayersChecked_ok (src tgt : DB) (ids : List Int) (d : DB × Nat)
    (h : syncPlayersChecked src tgt ids = some d) :
    playersInsertOk tgt.players (playersToSync src tgt ids) = true := by
  by_cases h1 : ids.isEmpty = true
  · rw [playersToSync_nil_of_ids_empty src tgt ids h1]
    exact playersInsertOk_nil tgt.players
  by_cases h2 : (referencedPlayerNames src ids).isEmpty = true
  · rw [playersToSync_nil_of_names_empty src tgt ids h2]
    exact playersInsertOk_nil tgt.players
  unfold syncPlayersChecked at h
  rw [if_neg h1, if_neg h2] at h
  dsimp only at h
  by_cases h3 : playersInsertOk tgt.players (playersToSync src tgt ids) = true
  · exact h3
  · rw [if_neg h3] at h
    cases h

/-- Each run either leaves the player table untouched and persists no
synthesized row (in particular whenever it aborts), or appends exactly
`playersToSync` after the unique-id check passed. -/
theorem runChecked_cases (src tgt : DB) :
    ((runTargetChecked src tgt).players = tgt.players ∧ runEntriesChecked src tgt = []) ∨
    ((runTargetChecked src tgt).players =
        tgt.players ++ playersToSync src tgt (worklist src tgt) ∧
      playersInsertOk tgt.players (playersToSync src tgt (worklist src tgt)) = true ∧
      runEntriesChecked src tgt = synthEntries src tgt (worklist src tgt)) := by
  cases hm : syncChecked src tgt with
  | none =>
    left
    constructor
    · unfold runTargetChecked
      rw [hm]
    · unfold runEntriesChecked
      rw [hm]
  | some r =>
    right
    have htgt : runTargetChecked src tgt = r.db := by
      unfold runTargetChecked
      rw [hm]
    have hent : runEntriesChecked src tgt = synthEntries src tgt (worklist src tgt) := by
      unfold runEntriesChecked
      rw [hm]
    unfold syncChecked at hm
    by_cases hw : (worklist src tgt).isEmpty = true
    · rw [if_pos hw] at hm
      have hr : (⟨tgt, zeroStats, 0, 0⟩ : SyncResult) = r := Option.some_inj.mp hm
      refine ⟨?_, ?_, hent⟩
      · rw [htgt, ← hr, playersToSync_nil_of_ids_empty src tgt _ hw, List.append_nil]
      · rw [playersToSync_nil_of_ids_empty src tgt _ hw]
        exact playersInsertOk_nil tgt.players
    · rw [if_neg hw] at hm
      cases hp : syncPlayersChecked src tgt (worklist src tgt) with
      | none =>
        rw [hp] at hm
        cases hm
      | some d =>
        rw [hp] at hm
        simp only [Option.map_some'] at hm
        injection hm with hr
        have hd : d = syncPlayers src tgt (worklist src tgt) :=
          syncPlayersChecked_some src tgt (worklist src tgt) d hp
        have hok := syncPlayersChecked_ok src tgt (worklist src tgt) d hp
        refine ⟨?_, hok, hent⟩
        rw [htgt, ← hr]
        dsimp only
        rw [syncArchetypes_players, syncDecks_players, syncMatches_players,
          syncStandings_players]
        by_cases hne : (getUpstreamEvents src (getLocalEventIds tgt)).isEmpty = true
        · rw [if_pos hne, hd]
          exact syncPlayers_players_append src tgt (worklist src tgt)
        · rw [if_neg hne, syncEvents_players, hd]
          exact syncPlayers_players_append src tgt (worklist src tgt)

/-- The C7 claim over a run sequence: the synthesized ids persisted
across the runs are pairwise distinct and negative (hence never equal
to any positive id on the target), and a synthesized id is never
carried by a row with a different name on the final target. -/
def c7ClaimHolds (tgt0 : DB) (runs : List DB) : Prop :=
  ((allSynthChecked tgt0 runs).map (·.id)).Nodup ∧
  (∀ p ∈ allSynthChecked tgt0 runs, p.id < 0) ∧
  (∀ p ∈ allSynthChecked tgt0 runs, ∀ q ∈ (runSeqChecked tgt0 runs).players,
    q.id = p.id → q.name = p.name)

instance (tgt0 : DB) (runs : List DB) : Decidable (c7ClaimHolds tgt0 runs) := by
  unfold c7ClaimHolds; exact inferInstance

/-- The abort path is real: an upstream player carrying the nonpositive
id `-1` that collides with an existing local id `-1` is adopted as-is
by the assignment loop, and the players INSERT then aborts the run
(unique-id violation), leaving the target unchanged — the colliding id
is never persisted under the second name. -/
theorem syncChecked_id_collision_aborts :
    syncChecked
      ⟨[⟨100, "E", 1, "Modern", "League", none, some 2⟩], [⟨-1, "Carol"⟩],
       [⟨100, 2, "Carol", "1-1", 3, 0, 0, 0⟩], [], [], []⟩
      ⟨[], [⟨-1, "Bob"⟩], [], [], [], []⟩ = none ∧
    runTargetChecked
      ⟨[⟨100, "E", 1, "Modern", "League", none, some 2⟩], [⟨-1, "Carol"⟩],
       [⟨100, 2, "Carol", "1-1", 3, 0, 0, 0⟩], [], [], []⟩
      ⟨[], [⟨-1, "Bob"⟩], [], [], [], []⟩ = ⟨[], [⟨-1, "Bob"⟩], [], [], [], []⟩ := by
  constructor
  · decide
  · decide

/-- The model is not vacuous: two completed runs synthesizing "Bob" and
then "Carol" (both absent upstream) persist the distinct ids -1, -2. -/
theorem allSynthChecked_two_runs :
    allSynthChecked ⟨[], [], [], [], [], []⟩
      [⟨[⟨100, "E1", 1, "Modern", "League", none, some 2⟩], [],
        [⟨100, 1, "Bob", "2-0", 6, 0, 0, 0⟩], [], [], []⟩,
       ⟨[⟨101, "E2", 2, "Modern", "League", none, some 2⟩], [],
        [⟨101, 2, "Carol", "1-1", 3, 0, 0, 0⟩], [], [], []⟩] =
      [⟨-1, "Bob"⟩, ⟨-2, "Carol"⟩] := by
  decide

theorem c7_aux :
    ∀ (runs : List DB) (tgt : DB) (A : List Player),
      ((A.map (·.id)).Nodup) →
      (∀ p ∈ A, p.id < 0 ∧ p ∈ tgt.players ∧
        ∀ q ∈ tgt.players, q.id = p.id → q.name = p.name) →
      ((A ++ allSynthChecked tgt runs).map (·.id)).Nodup ∧
      (∀ p ∈ A ++ allSynthChecked tgt runs, p.id < 0) ∧
      (∀ p ∈ A ++ allSynthChecked tgt runs,
        ∀ q ∈ (runSeqChecked tgt runs).players, q.id = p.id → q.name = p.name) := by
  intro runs
  induction runs with
  | nil =>
    intro tgt A hnd hA
    simp only [allSynthChecked, List.append_nil, runSeqChecked]
    exact ⟨hnd, fun p hp => (hA p hp).1, fun p hp q hq he => (hA p hp).2.2 q hq he⟩
  | cons src rest ih =>
    intro tgt A hnd hA
    rcases runChecked_cases src tgt with ⟨hpl, hent⟩ | ⟨hpl, hok, hent⟩
    · have hA' : ∀ p ∈ A, p.id < 0 ∧ p ∈ (runTargetChecked src tgt).players ∧
          ∀ q ∈ (runTargetChecked src tgt).players, q.id = p.id → q.name = p.name := by
        intro p hp
        rw [hpl]
        exact hA p hp
      have hmain := ih (runTargetChecked src tgt) A hnd hA'
      simp only [allSynthChecked, runSeqChecked, hent, List.nil_append]
      exact hmain
    · have hok' := hok
      unfold playersInsertOk at hok'
      rw [Bool.and_eq_true] at hok'
      have hpsnd : ((playersToSync src tgt (worklist src tgt)).map (·.id)).Nodup :=
        of_decide_eq_true hok'.1
      have hfresh : ∀ p ∈ playersToSync src tgt (worklist src tgt),
          p.id ∉ tgt.players.map (·.id) :=
        fun p hp => of_decide_eq_true (List.all_eq_true.mp hok'.2 p hp)
      have hSfloor := synthEntries_le_floor src tgt (worklist src tgt)
      have hfloor0 := localFloor_nonpos tgt
      have hSneg : ∀ p ∈ synthEntries src tgt (worklist src tgt), p.id < 0 := by
        intro p hp
        have := hSfloor p hp
        omega
      have hSsub : ∀ p ∈ synthEntries src tgt (worklist src tgt),
          p ∈ playersToSync src tgt (worklist src tgt) :=
        fun p hp => (List.mem_filter.mp hp).1
      have hSnodup := synthEntries_ids_nodup src tgt (worklist src tgt)
      have hnd' : ((A ++ synthEntries src tgt (worklist src tgt)).map (·.id)).Nodup := by
        rw [List.map_append, List.nodup_append]
        refine ⟨hnd, hSnodup, ?_⟩
        intro b hbA hbS
        rcases List.mem_map.mp hbA with ⟨p, hpA, hpe⟩
        rcases List.mem_map.mp hbS with ⟨s, hsS, hse⟩
        have hmemtgt : p.id ∈ tgt.players.map (·.id) :=
          List.mem_map_of_mem _ (hA p hpA).2.1
        refine hfresh s (hSsub s hsS) ?_
        rw [hse, ← hpe]
        exact hmemtgt
      have hA' : ∀ p ∈ A ++ synthEntries src tgt (worklist src tgt),
          p.id < 0 ∧ p ∈ (runTargetChecked src tgt).players ∧
          ∀ q ∈ (runTargetChecked src tgt).players, q.id = p.id → q.name = p.name := by
        intro p hp
        rw [hpl]
        rcases List.mem_append.mp hp with hpA | hpS
        · refine ⟨(hA p hpA).1, List.mem_append_left _ (hA p hpA).2.1, ?_⟩
          intro q hq he
          rcases List.mem_append.mp hq with hqt | hqs
          · exact (hA p hpA).2.2 q hqt he
          · exfalso
            refine hfresh q hqs ?_
            rw [he]
            exact List.mem_map_of_mem _ (hA p hpA).2.1
        · refine ⟨hSneg p hpS, List.mem_append_right _ (hSsub p hpS), ?_⟩
          intro q hq he
          rcases List.mem_append.mp hq with hqt | hqs
          · exfalso
            refine hfresh p (hSsub p hpS) ?_
            rw [← he]
            exact List.mem_map_of_mem _ hqt
          · exact congrArg Player.name (List.inj_on_of_nodup_map hpsnd hqs (hSsub p hpS) he)
      have hmain := ih (runTargetChecked src tgt)
        (A ++ synthEntries src tgt (worklist src tgt)) hnd' hA'
      simp only [allSynthChecked, runSeqChecked, hent]
      rw [← List.append_assoc]
      exact hmain

/-- C7: across any sequence of reconciler runs — each run modelled with
its abort path, the target's unique `players.id` making a colliding
insert raise and leave the target unchanged — the synthesized Player
identifiers persisted on the target are pairwise distinct and all
negative, hence never equal to any positive identifier present on the
target; and on the final target a row carrying a synthesized id always
carries the name that id was issued for: once assigned, a synthetic id
is never reused for a different name. -/
theorem synth_ids_across_runs (tgt0 : DB) (runs : List DB) :
    c7ClaimHolds tgt0 runs := by
  have h := c7_aux runs tgt0 [] (by simp) (by intro p hp; cases hp)
  unfold c7ClaimHolds
  simpa using h

theorem sync_db_events_eq (src tgt : DB) (h : ¬(worklist src tgt).isEmpty = true) :
    ((sync src tgt).db).events =
      if (getUpstreamEvents src (getLocalEventIds tgt)).isEmpty then tgt.events
      else upsertBy eventKey tgt.events (getUpstreamEvents src (getLocalEventIds tgt)) := by
  rw [sync_db_stages src tgt h]
  rw [syncArchetypes_events, syncDecks_events, syncMatches_events, syncStandings_events]
  by_cases hne : (getUpstreamEvents src (getLocalEventIds tgt)).isEmpty = true
  · rw [if_pos hne, if_pos hne]
    exact syncPlayers_events ..
  · rw [if_neg hne, if_neg hne]
    rw [syncEvents_events, if_neg hne, syncPlayers_events]

theorem sync_db_standings_eq (src tgt : DB) (h : ¬(worklist src tgt).isEmpty = true) :
    ((sync src tgt).db).standings =
      upsertBy standingKey tgt.standings
        ((src.standings.filter
          (fun s => decide (s.event_id ∈ worklist src tgt))).insertionSort standingsBefore) := by
  rw [sync_db_stages src tgt h]
  rw [syncArchetypes_standings, syncDecks_standings, syncMatches_standings,
    syncStandings_standings]
  rw [if_neg h]
  congr 1
  by_cases hne : (getUpstreamEvents src (getLocalEventIds tgt)).isEmpty = true
  · rw [if_pos hne]
    exact syncPlayers_standings ..
  · rw [if_neg hne]
    rw [syncEvents_standings, syncPlayers_standings]

theorem sync_db_matches_eq (src tgt : DB) (h : ¬(worklist src tgt).isEmpty = true) :
    ((sync src tgt).db).matches' =
      upsertBy matchKey tgt.matches'
        ((src.matches'.filter
          (fun m => decide (m.event_id ∈ worklist src tgt))).insertionSort matchesBefore) := by
  rw [sync_db_stages src tgt h]
  rw [syncArchetypes_matches, syncDecks_matches, syncMatches_matches]
  rw [if_neg h]
  congr 1
  rw [syncStandings_matches]
  by_cases hne : (getUpstreamEvents src (getLocalEventIds tgt)).isEmpty = true
  · rw [if_pos hne]
    exact syncPlayers_matches ..
  · rw [if_neg hne]
    rw [syncEvents_matches, syncPlayers_matches]

/-- When the incomplete set is within the 100-row bound, every
incomplete event id is returned by the diff engine. -/
theorem incomplete_complete (tgt : DB)
    (hlen : (((tgt.events.filter (incompletePred tgt)).map
      (fun e => (e.id, e.name, e.date))).dedup).length ≤ 100)
    (e : EventRecord) (he : e ∈ tgt.events) (hp : incompletePred tgt e = true) :
    e.id ∈ getIncompleteEventIds tgt := by
  have ht : (e.id, e.name, e.date) ∈ (tgt.events.filter (incompletePred tgt)).map
      (fun e => (e.id, e.name, e.date)) :=
    List.mem_map_of_mem _ (List.mem_filter.mpr ⟨he, hp⟩)
  have ht2 := List.mem_dedup.mpr ht
  have ht3 : (e.id, e.name, e.date) ∈ (((tgt.events.filter (incompletePred tgt)).map
      (fun e => (e.id, e.name, e.date))).dedup).insertionSort incompleteBefore :=
    (List.perm_insertionSort incompleteBefore _).mem_iff.mpr ht2
  have hslen : ((((tgt.events.filter (incompletePred tgt)).map
      (fun e => (e.id, e.name, e.date))).dedup).insertionSort incompleteBefore).length ≤ 100 := by
    rw [(List.perm_insertionSort incompleteBefore _).length_eq]
    exact hlen
  have htake : incompleteSelected tgt = (((tgt.events.filter (incompletePred tgt)).map
      (fun e => (e.id, e.name, e.date))).dedup).insertionSort incompleteBefore := by
    unfold incompleteSelected
    exact List.take_of_length_le hslen
  exact List.mem_map.mpr ⟨(e.id, e.name, e.date), htake ▸ ht3, rfl⟩

/-- If the diff engine returns nothing, no target event is incomplete. -/
theorem incomplete_nil (tgt : DB) (h : getIncompleteEventIds tgt = []) :
    ∀ e ∈ tgt.events, incompletePred tgt e = false := by
  intro e he
  unfold getIncompleteEventIds at h
  have h1 : incompleteSelected tgt = [] := List.map_eq_nil_iff.mp h
  unfold incompleteSelected at h1
  rcases List.take_eq_nil_iff.mp h1 with h2 | h2
  · cases h2
  · have hperm : (((tgt.events.filter (incompletePred tgt)).map
        (fun e => (e.id, e.name, e.date))).dedup).Perm
        ((((tgt.events.filter (incompletePred tgt)).map
          (fun e => (e.id, e.name, e.date))).dedup).insertionSort incompleteBefore) :=
      (List.perm_insertionSort incompleteBefore _).symm
    rw [h2] at hperm
    have h4 := (List.dedup_eq_nil _).mp (List.Perm.eq_nil hperm)
    have h5 := List.map_eq_nil_iff.mp h4
    by_contra hc
    rw [Bool.not_eq_false] at hc
    have : e ∈ tgt.events.filter (incompletePred tgt) := List.mem_filter.mpr ⟨he, hc⟩
    rw [h5] at this
    exact absurd this (List.not_mem_nil e)

theorem sync_standings_has_key (src tgt : DB) (h : ¬(worklist src tgt).isEmpty = true)
    (s : Standing) (hs : s ∈ src.standings) (hw : s.event_id ∈ worklist src tgt) :
    ∃ z ∈ ((sync src tgt).db).standings, z.event_id = s.event_id := by
  rw [sync_db_standings_eq src tgt h]
  have hf : s ∈ src.standings.filter (fun x => decide (x.event_id ∈ worklist src tgt)) :=
    List.mem_filter.mpr ⟨hs, decide_eq_true hw⟩
  have hsort : s ∈ (src.standings.filter
      (fun x => decide (x.event_id ∈ worklist src tgt))).insertionSort standingsBefore :=
    (List.perm_insertionSort standingsBefore _).mem_iff.mpr hf
  have hkey := upsertBy_adds_keys standingKey _ tgt.standings s hsort
  rcases List.mem_map.mp hkey with ⟨z, hz, hze⟩
  refine ⟨z, hz, ?_⟩
  have : (z.event_id, z.player) = (s.event_id, s.player) := hze
  exact congrArg Prod.fst this

theorem sync_standings_keeps_key (src tgt : DB) (h : ¬(worklist src tgt).isEmpty = true)
    (s : Standing) (hs : s ∈ tgt.standings) :
    ∃ z ∈ ((sync src tgt).db).standings, z.event_id = s.event_id := by
  rw [sync_db_standings_eq src tgt h]
  have hkey : standingKey s ∈ (upsertBy standingKey tgt.standings
      ((src.standings.filter
        (fun x => decide (x.event_id ∈ worklist src tgt))).insertionSort
          standingsBefore)).map standingKey :=
    upsertBy_map_key_superset standingKey _ tgt.standings (standingKey s)
      (List.mem_map_of_mem _ hs)
  rcases List.mem_map.mp hkey with ⟨z, hz, hze⟩
  refine ⟨z, hz, ?_⟩
  have : (z.event_id, z.player) = (s.event_id, s.player) := hze
  exact congrArg Prod.fst this

theorem sync_matches_has_key (src tgt : DB) (h : ¬(worklist src tgt).isEmpty = true)
    (m : MatchRow) (hs : m ∈ src.matches') (hw : m.event_id ∈ worklist src tgt) :
    ∃ z ∈ ((sync src tgt).db).matches', z.event_id = m.event_id := by
  rw [sync_db_matches_eq src tgt h]
  have hf : m ∈ src.matches'.filter (fun x => decide (x.event_id ∈ worklist src tgt)) :=
    List.mem_filter.mpr ⟨hs, decide_eq_true hw⟩
  have hsort : m ∈ (src.matches'.filter
      (fun x => decide (x.event_id ∈ worklist src tgt))).insertionSort matchesBefore :=
    (List.perm_insertionSort matchesBefore _).mem_iff.mpr hf
  have hkey := upsertBy_adds_keys matchKey _ tgt.matches' m hsort
  rcases List.mem_map.mp hkey with ⟨z, hz, hze⟩
  refine ⟨z, hz, ?_⟩
  have : (z.event_id, z.round, z.player) = (m.event_id, m.round, m.player) := hze
  exact congrArg Prod.fst this

theorem sync_matches_keeps_key (src tgt : DB) (h : ¬(worklist src tgt).isEmpty = true)
    (m : MatchRow) (hs : m ∈ tgt.matches') :
    ∃ z ∈ ((sync src tgt).db).matches', z.event_id = m.event_id := by
  rw [sync_db_matches_eq src tgt h]
  have hkey : matchKey m ∈ (upsertBy matchKey tgt.matches'
      ((src.matches'.filter
        (fun x => decide (x.event_id ∈ worklist src tgt))).insertionSort
          matchesBefore)).map matchKey :=
    upsertBy_map_key_superset matchKey _ tgt.matches' (matchKey m)
      (List.mem_map_of_mem _ hs)
  rcases List.mem_map.mp hkey with ⟨z, hz, hze⟩
  refine ⟨z, hz, ?_⟩
  have : (z.event_id, z.round, z.player) = (m.event_id, m.round, m.player) := hze
  exact congrArg Prod.fst this

theorem getUpstreamEvents_nil_of_present (src : DB) (excl : List Int)
    (h : ∀ e ∈ src.events, e.id ∈ excl) : getUpstreamEvents src excl = [] := by
  unfold getUpstreamEvents
  split
  · next hemp =>
    have hnil : src.events = [] := by
      cases hsrc : src.events with
      | nil => rfl
      | cons e es =>
        exfalso
        have := h e (by rw [hsrc]; exact List.mem_cons_self ..)
        rw [List.isEmpty_iff.mp hemp] at this
        exact absurd this (List.not_mem_nil _)
    rw [hnil]
    rfl
  · have hfil : src.events.filter (fun e => !(decide (e.id ∈ excl))) = [] := by
      rw [List.filter_eq_nil_iff]
      intro e he
      simp [h e he]
    rw [hfil]
    rfl

/-- After one run whose incomplete worklist was not truncated and whose
source supplies standings and matches for every worklist event with a
nonzero player count, no event on the resulting target is incomplete. -/
theorem sync_incomplete_resolved (src tgt : DB)
    (hA : (((tgt.events.filter (incompletePred tgt)).map
      (fun e => (e.id, e.name, e.date))).dedup).length ≤ 100)
    (hB : ∀ i ∈ worklist src tgt,
      ((∃ e ∈ src.events, e.id = i ∧ 0 < e.players.getD 0) ∨
       (∃ e ∈ tgt.events, e.id = i ∧ 0 < e.players.getD 0)) →
      (∃ s ∈ src.standings, s.event_id = i) ∧ (∃ m ∈ src.matches', m.event_id = i)) :
    ∀ e ∈ ((sync src tgt).db).events, incompletePred ((sync src tgt).db) e = false := by
  intro e he
  by_cases hw : (worklist src tgt).isEmpty = true
  · rw [sync_empty_case src tgt hw] at he ⊢
    have hinc : getIncompleteEventIds tgt = [] := by
      unfold worklist at hw
      exact (List.append_eq_nil.mp (List.isEmpty_iff.mp hw)).2
    exact incomplete_nil tgt hinc e he
  · rw [incompletePred_false_iff]
    by_cases hp : 0 < e.players.getD 0
    · refine Or.inr ?_
      have hev := sync_db_events_eq src tgt hw
      rw [hev] at he
      have hsplit : e ∈ tgt.events ∨ e ∈ getUpstreamEvents src (getLocalEventIds tgt) := by
        by_cases hne : (getUpstreamEvents src (getLocalEventIds tgt)).isEmpty = true
        · rw [if_pos hne] at he
          exact Or.inl he
        · rw [if_neg hne] at he
          exact upsertBy_mem eventKey _ tgt.events e he
      rcases hsplit with hetgt | hnew
      · by_cases hie : incompletePred tgt e = true
        · have hid : e.id ∈ getIncompleteEventIds tgt :=
            incomplete_complete tgt hA e hetgt hie
          have hiw : e.id ∈ worklist src tgt := by
            unfold worklist
            exact List.mem_append_right _ hid
          rcases hB e.id hiw (Or.inr ⟨e, hetgt, rfl, hp⟩) with
            ⟨⟨s, hs, hsid⟩, ⟨m, hm, hmid⟩⟩
          rcases sync_standings_has_key src tgt hw s hs (by rw [hsid]; exact hiw) with
            ⟨z, hz, hze⟩
          rcases sync_matches_has_key src tgt hw m hm (by rw [hmid]; exact hiw) with
            ⟨y, hy, hye⟩
          exact ⟨⟨z, hz, by rw [hze, hsid]⟩, ⟨y, hy, by rw [hye, hmid]⟩⟩
        · rw [Bool.not_eq_true] at hie
          rcases (incompletePred_false_iff tgt e).mp hie with hnp |
            ⟨⟨s, hs, hsid⟩, ⟨m, hm, hmid⟩⟩
          · exact absurd hp hnp
          · rcases sync_standings_keeps_key src tgt hw s hs with ⟨z, hz, hze⟩
            rcases sync_matches_keeps_key src tgt hw m hm with ⟨y, hy, hye⟩
            exact ⟨⟨z, hz, by rw [hze, hsid]⟩, ⟨y, hy, by rw [hye, hmid]⟩⟩
      · obtain ⟨hesrc, _⟩ := getUpstreamEvents_mem src _ e hnew
        have hiw : e.id ∈ worklist src tgt := by
          unfold worklist
          exact List.mem_append_left _ (List.mem_map_of_mem _ hnew)
        rcases hB e.id hiw (Or.inl ⟨e, hesrc, rfl, hp⟩) with
          ⟨⟨s, hs, hsid⟩, ⟨m, hm, hmid⟩⟩
        rcases sync_standings_has_key src tgt hw s hs (by rw [hsid]; exact hiw) with
          ⟨z, hz, hze⟩
        rcases sync_matches_has_key src tgt hw m hm (by rw [hmid]; exact hiw) with
          ⟨y, hy, hye⟩
        exact ⟨⟨z, hz, by rw [hze, hsid]⟩, ⟨y, hy, by rw [hye, hmid]⟩⟩
    · exact Or.inl hp

theorem sync_src_events_present (src tgt : DB) :
    ∀ e ∈ src.events, e.id ∈ getLocalEventIds ((sync src tgt).db) := by
  intro e he
  by_cases hw : (worklist src tgt).isEmpty = true
  · rw [sync_empty_case src tgt hw]
    have hnew : getUpstreamEvents src (getLocalEventIds tgt) = [] := by
      unfold worklist at hw
      exact List.map_eq_nil_iff.mp (List.append_eq_nil.mp (List.isEmpty_iff.mp hw)).1
    by_contra hid
    have hmem := getUpstreamEvents_complete src (getLocalEventIds tgt) e he hid
    rw [hnew] at hmem
    exact absurd hmem (List.not_mem_nil e)
  · have hev := sync_db_events_eq src tgt hw
    unfold getLocalEventIds
    rw [hev]
    by_cases hne : (getUpstreamEvents src (getLocalEventIds tgt)).isEmpty = true
    · rw [if_pos hne]
      by_contra hid
      have hmem := getUpstreamEvents_complete src (getLocalEventIds tgt) e he hid
      rw [List.isEmpty_iff.mp hne] at hmem
      exact absurd hmem (List.not_mem_nil e)
    · rw [if_neg hne]
      rw [← map_eventKey_eq]
      by_cases hid : e.id ∈ getLocalEventIds tgt
      · apply upsertBy_map_key_superset eventKey _ tgt.events e.id
        rw [map_eventKey_eq]
        exact hid
      · have hm := getUpstreamEvents_complete src (getLocalEventIds tgt) e he hid
        exact upsertBy_adds_keys eventKey _ tgt.events e hm

/-- The C4 claim: a second run against the same unchanged source leaves
the target identical and reports an all-zero summary. -/
def c4ClaimHolds (src tgt : DB) : Prop :=
  (sync src (sync src tgt).db).db = (sync src tgt).db ∧
  (sync src (sync src tgt).db).stats = zeroStats ∧
  (sync src (sync src tgt).db).newEventsCount = 0 ∧
  (sync src (sync src tgt).db).updatedEventsCount = 0

instance (src tgt : DB) : Decidable (c4ClaimHolds src tgt) := by
  unfold c4ClaimHolds; exact inferInstance

/-- C4 (amended): the second run is a verbatim no-op — identical target
state and an all-zero summary — provided the first run's
incomplete-event backlog was within the 100-event recency bound and the
source supplies at least one standing and one match row for every
worklist event with a nonzero player count. -/
theorem sync_twice_idempotent (src tgt : DB)
    (hA : (((tgt.events.filter (incompletePred tgt)).map
      (fun e => (e.id, e.name, e.date))).dedup).length ≤ 100)
    (hB : ∀ i ∈ worklist src tgt,
      ((∃ e ∈ src.events, e.id = i ∧ 0 < e.players.getD 0) ∨
       (∃ e ∈ tgt.events, e.id = i ∧ 0 < e.players.getD 0)) →
      (∃ s ∈ src.standings, s.event_id = i) ∧ (∃ m ∈ src.matches', m.event_id = i)) :
    c4ClaimHolds src tgt := by
  have hnew2 : getUpstreamEvents src (getLocalEventIds ((sync src tgt).db)) = [] :=
    getUpstreamEvents_nil_of_present src _ (sync_src_events_present src tgt)
  have hinc2 : getIncompleteEventIds ((sync src tgt).db) = [] := by
    have hfil : ((sync src tgt).db).events.filter (incompletePred ((sync src tgt).db)) = [] :=
      List.filter_eq_nil_iff.mpr (fun e he => by
        rw [sync_incomplete_resolved src tgt hA hB e he]
        exact Bool.false_ne_true)
    unfold getIncompleteEventIds incompleteSelected
    rw [hfil]
    rfl
  have hw2 : (worklist src ((sync src tgt).db)).isEmpty = true := by
    unfold worklist
    rw [hnew2, hinc2]
    rfl
  have h2 := sync_empty_case src ((sync src tgt).db) hw2
  unfold c4ClaimHolds
  rw [h2]
  exact ⟨rfl, rfl, rfl, rfl⟩

/-- Witness for `sync_twice_idempotent`: one upstream event with its
standing and match; the first run imports it, the second run is a
zero no-op. -/
theorem sync_twice_idempotent_witness :
    ((((⟨[⟨100, "E", 1, "Modern", "League", none, some 2⟩], [],
        [⟨100, 1, "Alice", "2-0", 6, 0, 0, 0⟩],
        [⟨1, 100, 1, "Alice", "Bob", "1-0", "win", false, ""⟩], [], []⟩ : DB),
       (⟨[], [], [], [], [], []⟩ : DB)) : DB × DB).1 = (⟨[⟨100, "E", 1, "Modern", "League",
        none, some 2⟩], [], [⟨100, 1, "Alice", "2-0", 6, 0, 0, 0⟩],
        [⟨1, 100, 1, "Alice", "Bob", "1-0", "win", false, ""⟩], [], []⟩ : DB)) ∧
    c4ClaimHolds
      ⟨[⟨100, "E", 1, "Modern", "League", none, some 2⟩], [],
       [⟨100, 1, "Alice", "2-0", 6, 0, 0, 0⟩],
       [⟨1, 100, 1, "Alice", "Bob", "1-0", "win", false, ""⟩], [], []⟩
      ⟨[], [], [], [], [], []⟩ := by
  refine ⟨rfl, ?_⟩
  exact sync_twice_idempotent
    ⟨[⟨100, "E", 1, "Modern", "League", none, some 2⟩], [],
     [⟨100, 1, "Alice", "2-0", 6, 0, 0, 0⟩],
     [⟨1, 100, 1, "Alice", "Bob", "1-0", "win", false, ""⟩], [], []⟩
    ⟨[], [], [], [], [], []⟩ (by decide) (by decide)

/-- C4 counterexample to the unqualified claim: the target's sole event
is incomplete (nonzero players, no standings, no matches) and the
source has its standing but no match row; run 1 writes the standing
yet the event stays incomplete, so run 2 re-selects it, rewrites the
standing (stats.standings = 1) and reports updatedEventsCount = 1. -/
theorem c4Claim_counterexample :
    ¬ c4ClaimHolds
      ⟨[⟨1, "E", 5, "Modern", "League", none, some 2⟩], [],
       [⟨1, 1, "Alice", "2-0", 6, 0, 0, 0⟩], [], [], []⟩
      ⟨[⟨1, "E", 5, "Modern", "League", none, some 2⟩], [], [], [], [], []⟩ := by
  decide
